import Mathlib

/-!
Shallow embedding of the changelog core of `rooster` (file `src/rooster/_changelog.py`,
helpers from `src/rooster/_versions.py`), together with proofs about the claims
C1-C10.

Modelling conventions, used throughout:

* A parsed marko block tree is modelled by `List Block`.  A `Block.heading` carries
  the nesting level and the rendered text of its first inline child (the code only
  ever reads a heading through `renderer.render(element.children[0])`; headings
  produced by this system always have exactly one raw-text inline child).
  `marko.block.BlankLine` (inserted as a class marker) is `Block.blankLine`;
  a directly constructed `marko.block.HTMLBlock(body)` is `Block.htmlBlock body`;
  a paragraph is `Block.para text`; a parsed bullet list is `Block.bulletList lines`
  where each entry is a full `- ...` source line (the markdown renderer reproduces
  each tight list item as that line followed by a newline).
* `packaging.version.Version` is modelled for the dotted-numeric subset that the
  claims exercise: a version is its list of release segments, compared - exactly as
  `packaging` does - by stripping trailing zeros and comparing lexicographically
  (shorter tuples compare as strict prefixes, like Python tuples).  Strings with
  epoch / pre / post / dev / local parts are outside the modelled subset and are
  treated as unparseable.
* Python `list.insert`, `list.pop`, `sorted`, `str.replace`, `str.rstrip`,
  `str.splitlines` are modelled by `pyInsert`, `List.eraseIdx`, insertion sorts
  (Python's sort is stable; a fold-from-the-right insertion sort with `≤` has the
  same behaviour on the orders used here), `strReplace`, `rstripNl`, `pySplitlines`.
-/

set_option maxRecDepth 8192

namespace Rooster

/-- Markdown block elements, at the granularity used by `rooster._changelog`. -/
inductive Block where
  | heading (level : Nat) (title : String)
  | blankLine
  | htmlBlock (body : String)
  | para (text : String)
  | bulletList (lines : List String)

deriving instance DecidableEq, Repr for Block

/-- `marko.block.Heading` test at a given level (`isinstance(element, Heading) and
element.level == level`). -/
def isHeadingAt (lvl : Nat) : Block → Bool
  | .heading l _ => l == lvl
  | _ => false

/-- The rendered first inline child of a heading, `renderer.render(element.children[0])`.
Only ever applied to headings. -/
def headingTitle : Block → String
  | .heading _ t => t
  | _ => ""

/-- `rooster._changelog.new_heading`: `marko.parse("#"*level + " " + text)` yields a
heading whose rendered title is `text`. -/
def new_heading (text : String) (level : Nat) : Block := Block.heading level text

/-- `Changelog.new()`: a title heading followed by two blank-line markers. -/
def changelogNew : List Block :=
  [new_heading "Changelog" 1, Block.blankLine, Block.blankLine]

/-! ### Version parsing and ordering (`packaging.version.Version`, dotted-numeric subset) -/

/-- Split a character list on a separator character (every piece kept, including
empty ones, like Python `str.split(sep)`). -/
def splitOnChar (sep : Char) : List Char → List (List Char)
  | [] => [[]]
  | c :: rest =>
    let r := splitOnChar sep rest
    if c = sep then [] :: r
    else
      match r with
      | h :: t => (c :: h) :: t
      | [] => [[c]]

/-- One dotted segment: nonempty, all digits. -/
def isDigitSeg (l : List Char) : Bool := !l.isEmpty && l.all Char.isDigit

/-- Numeric value of a digit segment. -/
def segToNat (l : List Char) : Nat := l.foldl (fun n c => n * 10 + (c.toNat - 48)) 0

/-- `Version(s)` for the dotted-numeric subset: the list of release segments, or
`none` when `packaging` would raise `InvalidVersion` (or when `s` uses version
features outside the modelled subset). -/
def pyVersion? (s : String) : Option (List Nat) :=
  let segs := splitOnChar '.' s.data
  if segs.all isDigitSeg then some (segs.map segToNat) else none

/-- `packaging`'s comparison key for the release segment: trailing zeros stripped. -/
def vKey (l : List Nat) : List Nat := (l.reverse.dropWhile (· == 0)).reverse

/-- Lexicographic strict order on segment lists (Python tuple `<`). -/
def lexlt : List Nat → List Nat → Bool
  | _, [] => false
  | [], _ :: _ => true
  | a :: as, b :: bs => a < b || (a == b && lexlt as bs)

/-- `Version.__lt__` on release segments: compare the trailing-zero-stripped keys. -/
def vltB (a b : List Nat) : Bool := lexlt (vKey a) (vKey b)

/-- `Version.__eq__` on release segments: equal trailing-zero-stripped keys. -/
def veqB (a b : List Nat) : Bool := vKey a == vKey b

/-- `str(Version)` for the modelled subset: the dotted release segments. -/
def vstr (v : List Nat) : String := String.intercalate "." (v.map toString)

/-! ### `Changelog.insert_version_section` (lines 144-212), statement by statement -/

/-- The data of a `VersionSection` used by the merge engine: its version string, its
heading element and its child blocks. -/
structure VersionSection where
  version : String
  element : Block
  children : List Block

deriving instance DecidableEq, Repr for VersionSection

/-- The first `for` loop of `insert_version_section` (lines 151-168): scan the block
list, building the Python `remove` list (`none` models Python `None`).  Per element:
first `if remove: remove.append(i)`; then, for a heading at `level`, either
`remove.pop()` and break, or start `remove = [i]` when the rendered title equals the
new section's version. -/
def scanExisting (lvl : Nat) (v : String) : List Block → Nat → Option (List Nat) → Option (List Nat)
  | [], _, remove => remove
  | b :: rest, i, remove =>
    let rem : Option (List Nat) :=
      match remove with
      | some r => some (r ++ [i])
      | none => none
    if isHeadingAt lvl b then
      match rem with
      | some r => some r.dropLast
      | none =>
        if headingTitle b == v then scanExisting lvl v rest (i + 1) (some [i])
        else scanExisting lvl v rest (i + 1) none
    else scanExisting lvl v rest (i + 1) rem

/-- Python truthiness of the `remove` variable (`None` and `[]` are falsy). -/
def pyTruthy : Option (List Nat) → Bool
  | some (_ :: _) => true
  | _ => false

/-- `sorted` on a list of naturals: insertion sort (stable, like Python's sort). -/
def insertSorted (n : Nat) : List Nat → List Nat
  | [] => [n]
  | m :: rest => if n ≤ m then n :: m :: rest else m :: insertSorted n rest

/-- Python `sorted(remove)`. -/
def pySort (l : List Nat) : List Nat := l.foldr insertSorted []

/-- The removal loop (lines 171-172): `for i, to_remove in enumerate(sorted(remove)):
elements.pop(to_remove - i)`; `off` is the enumeration counter. -/
def removeLoop : List Block → List Nat → Nat → List Block
  | l, [], _ => l
  | l, j :: js, off => removeLoop (l.eraseIdx (j - off)) js (off + 1)

/-- The whole removal step applied to the accumulated `remove` list. -/
def removeIndices (l : List Block) (idxs : List Nat) : List Block :=
  removeLoop l (pySort idxs) 0

/-- The break test of the insertion scan (lines 188-200): break when there is no
comparable new version, when the existing heading's title does not parse, or when
the existing version is strictly smaller than the new one. -/
def insBreak (cmp : Option (List Nat)) (b : Block) : Bool :=
  match cmp with
  | none => true
  | some r =>
    match pyVersion? (headingTitle b) with
    | none => true
    | some w => vltB w r

/-- The second `for` loop of `insert_version_section` (lines 182-200): return the
Python loop variable `i` after the loop, i.e. the break index, or the index of the
last element when the loop completes, or the initial `i = 0` for an empty list
(`Nat` subtraction makes the `[]` case return `i - 1`, matching all three). -/
def scanInsert (lvl : Nat) (cmp : Option (List Nat)) : List Block → Nat → Nat
  | [], i => i - 1
  | b :: rest, i =>
    if isHeadingAt lvl b then
      if insBreak cmp b then i else scanInsert lvl cmp rest (i + 1)
    else scanInsert lvl cmp rest (i + 1)

/-- Python `list.insert(i, x)` (clamps `i` to the length). -/
def pyInsert (l : List Block) (i : Nat) (x : Block) : List Block :=
  l.take i ++ x :: l.drop i

/-- The child-insertion loop (lines 206-208): `for offset, child in
enumerate(section.children): elements.insert(i + 2 + offset, child)`. -/
def insertChildren (base : Nat) : List Block → List Block → Nat → List Block
  | l, [], _ => l
  | l, c :: cs, off => insertChildren base (pyInsert l (base + off) c) cs (off + 1)

/-- The raw HTML comment block inserted for an empty section (line 212). -/
def noChangesHtml : Block := Block.htmlBlock "<!-- No changes -->"

/-- Lines 202-212: insert the heading at `i`, a blank-line marker at `i + 1`, the
children at `i + 2 + offset`, and for a childless section a blank-line marker and
then the `<!-- No changes -->` HTML block, both at `i + 2`. -/
def spliceAt (l : List Block) (i : Nat) (s : VersionSection) : List Block :=
  let l1 := pyInsert l i s.element
  let l2 := pyInsert l1 (i + 1) Block.blankLine
  let l3 := insertChildren (i + 2) l2 s.children 0
  if s.children.isEmpty then
    pyInsert (pyInsert l3 (i + 2) Block.blankLine) (i + 2) noChangesHtml
  else l3

/-- `Changelog.insert_version_section(section, level)` (lines 144-212). -/
def insert_version_section (doc : List Block) (s : VersionSection) (lvl : Nat) : List Block :=
  let remove := scanExisting lvl s.version doc 0 none
  if pyTruthy remove then
    let r := remove.getD []
    spliceAt (removeIndices doc r) (r.headD 0) s
  else
    spliceAt doc (scanInsert lvl (pyVersion? s.version) doc 0) s

/-! ### Specification-side views of the merge -/

/-- Index of the first element satisfying `p`. -/
def firstIdx? {α : Type} (p : α → Bool) : List α → Option Nat
  | [] => none
  | a :: l => if p a then some 0 else (firstIdx? p l).map (· + 1)

/-- Does a block start the replacement range: a heading at `lvl` whose rendered
title equals the section's version string. -/
def matchPred (lvl : Nat) (v : String) (b : Block) : Bool :=
  isHeadingAt lvl b && (headingTitle b == v)

/-- The exclusive end of the replacement range starting at `st`: the index of the
next heading at `lvl` after `st`, or the length of the document. -/
def nextAtLevel (lvl : Nat) (doc : List Block) (st : Nat) : Nat :=
  match firstIdx? (isHeadingAt lvl) (doc.drop (st + 1)) with
  | some k => st + 1 + k
  | none => doc.length

/-- The block run spliced in for a section: heading, blank marker, then the children,
or - for a childless section - the `<!-- No changes -->` HTML block framed as the
code inserts it. -/
def splicedBlocks (s : VersionSection) : List Block :=
  [s.element, Block.blankLine] ++
    (if s.children.isEmpty then [noChangesHtml, Block.blankLine] else s.children)

/-- The rendered titles of the headings at level `lvl`, in document order. -/
def headingTitlesAt (lvl : Nat) (doc : List Block) : List String :=
  doc.filterMap fun b =>
    match b with
    | Block.heading l t => if l == lvl then some t else none
    | _ => none

/-! ### `VersionSection.from_pull_requests` (lines 252-352) -/

/-- `rooster._github.PullRequest` (frozen dataclass; value equality over all fields,
`__lt__` by number). -/
structure PullRequest where
  title : String
  number : Nat
  labels : List String
  author : String
  repo_name : String
  repo_owner : String

deriving instance DecidableEq, Repr for PullRequest

/-- `PullRequest.url`. -/
def prUrl (pr : PullRequest) : String :=
  "https://github.com/" ++ pr.repo_owner ++ "/" ++ pr.repo_name ++ "/pull/" ++
    toString pr.number

/-- The default `change_template` applied to a pull request:
`- {title} ([#{number}]({url}))`.  (Generic templates are not modelled; every claim
uses the default.) -/
def changeLine (pr : PullRequest) : String :=
  "- " ++ pr.title ++ " ([#" ++ toString pr.number ++ "](" ++ prUrl pr ++ "))"

/-- Contributor line (line 429 of `_changelog.py`). -/
def contribLine (a : String) : String :=
  "- [@" ++ a ++ "](https://github.com/" ++ a ++ ")"

/-- The `rooster._config.Config` fields consumed by the builder, with their defaults.
Ordered dicts are modelled as association lists with distinct keys;
`changelog_sections` maps a label to a section name. -/
structure Config where
  section_labels : List (String × List String) := []
  changelog_sections : List (String × String) := []
  changelog_contributors : Bool := true
  changelog_ignore_labels : List String := []
  changelog_ignore_authors : List String := ["dependabot"]

deriving instance DecidableEq, Repr for Config

/-- `Config()` with no overrides. -/
def defaultConfig : Config := {}

/-- One step of the backwards-compatibility merge (lines 266-268):
`section_labels[section].append(label)` on a `defaultdict(list)` - append to the
existing entry, or create a new entry at the end. -/
def addCompat (m : List (String × List String)) (ls : String × String) :
    List (String × List String) :=
  if m.any (fun q => q.1 == ls.2) then
    m.map (fun q => if q.1 == ls.2 then (q.1, q.2 ++ [ls.1]) else q)
  else m ++ [(ls.2, [ls.1])]

/-- The merged ordered section-to-labels mapping. -/
def buildSectionLabels (cfg : Config) : List (String × List String) :=
  cfg.changelog_sections.foldl addCompat cfg.section_labels

/-- Line 275: `"Other changes" if sections else "Changes"` - the `sections` dict has
been initialised from the keys of `section_labels`, so it is truthy exactly when
`section_labels` is nonempty. -/
def otherSectionName (secLabels : List (String × List String)) : String :=
  if secLabels.isEmpty then "Changes" else "Other changes"

/-- Lines 271-276: one empty bucket per configured section, in order, then
`sections[other_section] = []` (append the fallback key if absent; if present the
assignment resets an already empty bucket in place). -/
def initBuckets (secLabels : List (String × List String)) :
    List (String × List PullRequest) :=
  let base := secLabels.map (fun q => (q.1, ([] : List PullRequest)))
  let other := otherSectionName secLabels
  if base.any (fun q => q.1 == other) then base else base ++ [(other, [])]

/-- Lines 286-290: the label loop breaks (skipping the record entirely) exactly when
some label is in `changelog_ignore_labels` or in `without_sections`. -/
def prDropped (cfg : Config) (without : List String) (pr : PullRequest) : Bool :=
  pr.labels.any fun lab =>
    cfg.changelog_ignore_labels.contains lab || without.contains lab

/-- Lines 292-298: walk the section mapping in order; skip sections outside a
nonempty `only_sections`; stop at the first section whose label set intersects the
record's labels. -/
def prTarget (secLabels : List (String × List String)) (only : List String)
    (pr : PullRequest) : Option String :=
  (secLabels.find? fun q =>
      (only.isEmpty || only.contains q.1) && q.2.any (fun lab => pr.labels.contains lab)).map
    (·.1)

/-- One iteration of the classification loop (lines 285-303) over the running
`sections` dict.  The fallback key is `section_labels.get("__unknown__",
other_section)`: with no section literally named `"__unknown__"` this is
`other_section` (a configured `"__unknown__"` key would put its unhashable label
list into `sections[...]` and raise `TypeError`; no claim configures it, so that
path is not modelled). -/
def routePR (cfg : Config) (secLabels : List (String × List String))
    (only without : List String) (other : String)
    (bs : List (String × List PullRequest)) (pr : PullRequest) :
    List (String × List PullRequest) :=
  if prDropped cfg without pr then bs
  else
    match prTarget secLabels only pr with
    | some sec => bs.map (fun q => if q.1 == sec then (q.1, q.2 ++ [pr]) else q)
    | none =>
      if only.isEmpty then
        bs.map (fun q => if q.1 == other then (q.1, q.2 ++ [pr]) else q)
      else bs

/-- `set(pull_requests)`: deduplication by value equality.  (CPython's set iteration
order is hash-based and implementation-defined; first-occurrence order is used here.
Every fact proved below about the classification is order-insensitive, and the one
order-sensitive output - the contributors list - takes its iteration order as an
explicit parameter.) -/
def pySet (prs : List PullRequest) : List PullRequest :=
  prs.foldl (fun l pr => if l.contains pr then l else l ++ [pr]) []

/-- Stable insertion by `PullRequest.__lt__` (the number). -/
def insertByNumber (pr : PullRequest) : List PullRequest → List PullRequest
  | [] => [pr]
  | q :: rest =>
    if pr.number ≤ q.number then pr :: q :: rest else q :: insertByNumber pr rest

/-- `sorted(...)` over pull requests (stable, ascending by number). -/
def sortByNumber (l : List PullRequest) : List PullRequest := l.foldr insertByNumber []

/-- Python `str` comparison (lexicographic by code point). -/
def strLtCh : List Char → List Char → Bool
  | [], [] => false
  | [], _ :: _ => true
  | _ :: _, [] => false
  | a :: as, b :: bs => a.toNat < b.toNat || (a == b && strLtCh as bs)

/-- Python `a <= b` on strings. -/
def pyStrLe (a b : String) : Bool := !(strLtCh b.data a.data)

/-- Stable insertion by title. -/
def insertByTitle (pr : PullRequest) : List PullRequest → List PullRequest
  | [] => [pr]
  | q :: rest =>
    if pyStrLe pr.title q.title then pr :: q :: rest else q :: insertByTitle pr rest

/-- `sorted(pull_requests, key=lambda pr: pr.title)` (line 311). -/
def sortByTitle (l : List PullRequest) : List PullRequest := l.foldr insertByTitle []

/-- The `sections` dict after the whole classification loop (lines 264-303). -/
def classifyBuckets (cfg : Config) (only without : List String)
    (prs : List PullRequest) : List (String × List PullRequest) :=
  let secLabels := buildSectionLabels cfg
  let other := otherSectionName secLabels
  (sortByNumber (pySet prs)).foldl (routePR cfg secLabels only without other)
    (initBuckets secLabels)

/-- The unique eligible authors (lines 278-282), in first-occurrence order; the
Python value is a set, so only its membership (and emptiness) is meaningful. -/
def eligibleAuthors (cfg : Config) (prs : List PullRequest) : List String :=
  ((prs.map (·.author)).filter
      (fun a => !cfg.changelog_ignore_authors.contains a)).foldl
    (fun l a => if l.contains a then l else l ++ [a]) []

/-- `marko.parse("\n".join(lines)).children` for a list of `- ...` lines: one bullet
list block, or no block at all for an empty input. -/
def parseLines (lines : List String) : List Block :=
  if lines.isEmpty then [] else [Block.bulletList lines]

/-- `VersionSection.from_pull_requests` (lines 252-352).  `version` is the already
rendered version string (`str(version)`; the `cargo` rewrite is outside the claims).
`authorIter` is the iteration order of the Python set `authors` - hash-based and
implementation-defined, hence an explicit parameter; it is meaningful when it
enumerates `eligibleAuthors cfg prs` in some order.  `release_date` is the
`YYYY-MM-DD`-formatted date (`date.today()` for the default argument). -/
def from_pull_requests (cfg : Config) (version : String) (prs : List PullRequest)
    (only without : List String) (authorIter : List String)
    (release_date : String) (lvl : Nat := 2) : VersionSection :=
  let buckets := classifyBuckets cfg only without prs
  let changesChildren := buckets.foldl
    (fun acc q =>
      if q.2.isEmpty then acc
      else
        acc ++ [new_heading q.1 3, Block.blankLine] ++
          parseLines ((sortByTitle q.2).map changeLine) ++ [Block.blankLine])
    []
  let allSectionChildren :=
    if cfg.changelog_contributors && !(eligibleAuthors cfg prs).isEmpty then
      changesChildren ++ [new_heading "Contributors" 3, Block.blankLine] ++
        parseLines (authorIter.map contribLine) ++ [Block.blankLine]
    else changesChildren
  { version := version
    element := new_heading version lvl
    children :=
      [Block.para ("Released on " ++ release_date ++ "."), Block.blankLine] ++
        allSectionChildren }

/-! ### Rendering (`Document.to_markdown` through `marko.md_renderer.MarkdownRenderer`) -/

/-- Rendering of one block: a heading is `"#" * level + " " + title + "\n"`, a blank
line renders as `"\n"`, an HTML block renders its raw body, a paragraph appends a
newline, each tight bullet item is its source line plus a newline. -/
def renderBlock : Block → String
  | .heading l t => String.mk (List.replicate l '#') ++ " " ++ t ++ "\n"
  | .blankLine => "\n"
  | .htmlBlock b => b
  | .para t => t ++ "\n"
  | .bulletList lines => String.join (lines.map (· ++ "\n"))

/-- `Changelog.to_markdown`. -/
def renderDoc (doc : List Block) : String := String.join (doc.map renderBlock)

/-! ### `extract_entry` (lines 477-513) and its helpers

Raw-text processing is modelled on `List Char` so that Python's character-based
indices and slices carry over directly. -/

/-- Python `str.splitlines` for `'\n'`-separated text: like splitting on `'\n'`, but
with no empty final piece for a trailing newline (and `[]` for the empty string). -/
def pySplitlines (s : List Char) : List (List Char) :=
  let parts := splitOnChar '\n' s
  match parts.getLast? with
  | some [] => parts.dropLast
  | _ => parts

/-- Python whitespace for `str.strip()` (the subset that can occur here). -/
def isPyWs (c : Char) : Bool := c = ' ' || c = '\t' || c = '\n' || c = '\r'

/-- Python `str.strip()`. -/
def pyStrip (l : List Char) : List Char :=
  ((l.dropWhile isPyWs).reverse.dropWhile isPyWs).reverse

/-- `line.startswith("## ")` (`VERSION_HEADING_PREFIX`). -/
def startsWithVh : List Char → Bool
  | '#' :: '#' :: ' ' :: _ => true
  | _ => false

/-- Modelled from the spec: `parse_version(config, s)` is imported by
`_changelog.py` from `rooster._versions` but absent from that file in `src/`; per
the spec it parses a version string per the configured scheme, yielding nothing for
an invalid string.  For the default (`pep440`) scheme this is the `Version`
constructor on the modelled subset. -/
def parse_version (l : List Char) : Option (List Nat) :=
  pyVersion? (String.mk l)

/-- `get_versions_from_changelog` (lines 462-474): the sequence of parsed versions
of the `"## "` heading lines.  The Python function returns a lazy `filter` object
over this sequence. -/
def changelogVersions (s : List Char) : List (List Nat) :=
  (pySplitlines s).filterMap fun line =>
    if startsWithVh line then parse_version (pyStrip (line.drop 2)) else none

/-- The exceptions `get_previous_version` can raise when handed the lazy filter. -/
inductive PyErr where
  | typeError
  | valueError

deriving instance DecidableEq, Repr for PyErr

deriving instance DecidableEq for Except

/-- Consume the iterator through the membership test `version not in versions`:
the remainder after the first element equal (by `Version.__eq__`) to `v`, or `none`
when the iterator is exhausted without a match. -/
def splitAtVersion (v : List Nat) : List (List Nat) → Option (List (List Nat))
  | [] => none
  | w :: rest => if veqB w v then some rest else splitAtVersion v rest

/-- Stable insertion by `Version.__lt__`. -/
def insertV (w : List Nat) : List (List Nat) → List (List Nat)
  | [] => [w]
  | m :: rest => if !vltB m w then w :: m :: rest else m :: insertV w rest

/-- `sorted(versions)`. -/
def pySortV (l : List (List Nat)) : List (List Nat) := l.foldr insertV []

/-- `list.index` with `Version.__eq__`. -/
def indexOfV (v : List Nat) : List (List Nat) → Option Nat
  | [] => none
  | w :: rest => if veqB w v then some 0 else (indexOfV v rest).map (· + 1)

/-- `get_previous_version(versions, version)` (`_versions.py` lines 55-66) applied -
as `extract_entry` does - to the lazy `filter` object returned by
`get_versions_from_changelog`.  The membership test `version not in versions`
consumes the iterator up to (and including) the first match; when there is no match
the exhausted iterator makes `[version] + versions` raise `TypeError`; when there is
one, `sorted(versions)` sees only the remainder, and `versions.index(version)`
raises `ValueError` if the version is not in that remainder. -/
def get_previous_version_lazy (vs : List (List Nat)) (v : List Nat) :
    Except PyErr (Option (List Nat)) :=
  match splitAtVersion v vs with
  | none => Except.error PyErr.typeError
  | some rest =>
    let sortedRest := pySortV rest
    match indexOfV v sortedRest with
    | none => Except.error PyErr.valueError
    | some idx =>
      if idx = 0 then Except.ok none else Except.ok (sortedRest.get? (idx - 1))

/-- First index of `pat` as a substring (`str.index` / the `in` test). -/
def subFind (pat : List Char) : List Char → Option Nat
  | [] => if pat.isEmpty then some 0 else none
  | c :: rest =>
    if pat.isPrefixOf (c :: rest) then some 0 else (subFind pat rest).map (· + 1)

/-- Python slice `l[a:b]`. -/
def pySlice (l : List Char) (a b : Nat) : List Char := (l.take b).drop a

/-- `extract_entry(config, changelog, version)` (lines 477-513) for the default
configuration.  Note the source computes `previous_version_str` from `version`,
not from `previous_version` (lines 493-501), so `previous_heading`, when built,
always equals `heading`. -/
def extract_entry (changelog : List Char) (version : List Nat) :
    Except PyErr (Option (List Char)) :=
  let version_str := vstr version
  let heading := ("## " ++ version_str ++ "\n\n").data
  let versions := changelogVersions changelog
  match get_previous_version_lazy versions version with
  | Except.error e => Except.error e
  | Except.ok previous_version =>
    if previous_version.isNone && (subFind heading changelog).isNone then
      Except.ok none
    else
      let previous_heading : Option (List Char) :=
        if previous_version.isSome then some (("## " ++ vstr version ++ "\n\n").data)
        else none
      match subFind heading changelog with
      | none => Except.ok none
      | some start =>
        match previous_heading with
        | none => Except.ok (some (pySlice changelog start changelog.length))
        | some ph =>
          match subFind ph changelog with
          | none => Except.error PyErr.valueError
          | some stop => Except.ok (some (pySlice changelog start stop))

/-! ### `ensure_spacing` (lines 453-459) -/

/-- Substring test, Python `pat in s`. -/
def strContains (pat : List Char) : List Char → Bool
  | [] => pat.isEmpty
  | l@(_ :: rest) => pat.isPrefixOf l || strContains pat rest

/-- Python `str.replace(pat, rep)` for a nonempty pattern: scan left to right,
replacing non-overlapping occurrences. -/
def strReplace (pat rep : List Char) : List Char → List Char
  | [] => []
  | c :: rest =>
    if !pat.isEmpty && pat.isPrefixOf (c :: rest) then
      rep ++ strReplace pat rep ((c :: rest).drop pat.length)
    else c :: strReplace pat rep rest
termination_by l => l.length
decreasing_by
  · simp only [List.length_drop, List.length_cons]
    rcases pat with _ | ⟨p, ps⟩
    · simp_all
    · simp only [List.length_cons]
      omega
  · simp

/-- Three consecutive newlines. -/
def nl3 : List Char := ['\n', '\n', '\n']

/-- Two consecutive newlines. -/
def nl2 : List Char := ['\n', '\n']

/-- The `while "\n\n\n" in changelog` loop (lines 455-456), with an explicit
iteration bound: every iteration shortens the string, so `s.length + 1` rounds are
never exhausted (proved below), making this the loop's exact behaviour. -/
def spacingLoop : Nat → List Char → List Char
  | 0, s => s
  | n + 1, s =>
    if strContains nl3 s then spacingLoop n (strReplace nl3 nl2 s) else s

/-- Python `str.rstrip("\n")`. -/
def rstripNl (s : List Char) : List Char :=
  (s.reverse.dropWhile (fun c => c = '\n')).reverse

/-- `ensure_spacing` (lines 453-459) on character lists. -/
def ensureSpacingList (s : List Char) : List Char :=
  rstripNl (spacingLoop (s.length + 1) s) ++ ['\n']

/-- `ensure_spacing` on strings. -/
def ensure_spacing (s : String) : String := String.mk (ensureSpacingList s.data)

/-- The insertion position of the no-replacement path: the index where the
insertion scan breaks, or - when the loop completes - the index of the last element
(`length - 1`, which is `0` for an empty document). -/
def insertPos (lvl : Nat) (v : String) (doc : List Block) : Nat :=
  match firstIdx? (fun b => isHeadingAt lvl b && insBreak (pyVersion? v) b) doc with
  | some j => j
  | none => doc.length - 1

/-- The index at which the spliced blocks start: the replaced heading's index on the
replacement path, the insertion position otherwise. -/
def spliceFrom (lvl : Nat) (v : String) (doc : List Block) : Nat :=
  match firstIdx? (matchPred lvl v) doc with
  | some st => st
  | none => insertPos lvl v doc

/-- The index of the first original block kept after the spliced blocks: the end of
the replaced range on the replacement path, the insertion position otherwise. -/
def spliceTo (lvl : Nat) (v : String) (doc : List Block) : Nat :=
  match firstIdx? (matchPred lvl v) doc with
  | some st => nextAtLevel lvl doc st
  | none => insertPos lvl v doc

/-- Repeated insertion starting from `Changelog.new()` at the default level 2. -/
def insertAllSections (secs : List VersionSection) : List Block :=
  secs.foldl (fun d s => insert_version_section d s 2) changelogNew

/-- Strictly-descending comparison of two heading title strings through version
parsing: true when both parse and the first is strictly newer. -/
def descB (a b : String) : Bool :=
  match pyVersion? a, pyVersion? b with
  | some x, some y => lexlt (vKey y) (vKey x)
  | _, _ => false

/-- The comparison key of a section's version string. -/
def keyOf (s : VersionSection) : Option (List Nat) := (pyVersion? s.version).map vKey

/-- The data-model well-formedness of a `VersionSection` (spec section 3): a
parseable version, a heading whose rendered title is the version string, and
children nested strictly below the version level. -/
def wfSectionB (s : VersionSection) : Bool :=
  (pyVersion? s.version).isSome && (s.element == Block.heading 2 s.version) &&
    s.children.all (fun c => !(isHeadingAt 2 c))

/-- The invariant maintained by repeated insertion: the last block is a blank-line
marker, every level-2 heading title parses to a version whose key was inserted
before, and the titles are strictly descending. -/
def chainInv (keys : List (List Nat)) (doc : List Block) : Prop :=
  doc.drop (doc.length - 1) = [Block.blankLine] ∧
  (∀ t ∈ headingTitlesAt 2 doc, ∃ w, pyVersion? t = some w ∧ vKey w ∈ keys) ∧
  (headingTitlesAt 2 doc).Pairwise (fun a b => descB a b = true)


/-! ## Helper lemmas: scans of `insert_version_section` -/

theorem firstIdx?_cons_pos {α : Type} {p : α → Bool} {a : α} (h : p a = true)
    (l : List α) : firstIdx? p (a :: l) = some 0 := by
  simp [firstIdx?, h]

theorem firstIdx?_cons_neg {α : Type} {p : α → Bool} {a : α} (h : p a = false)
    (l : List α) : firstIdx? p (a :: l) = (firstIdx? p l).map (· + 1) := by
  simp [firstIdx?, h]

theorem firstIdx?_none_iff {α : Type} {p : α → Bool} {l : List α} :
    firstIdx? p l = none ↔ ∀ a ∈ l, p a = false := by
  induction l with
  | nil => simp [firstIdx?]
  | cons a t ih =>
    by_cases h : p a
    · rw [firstIdx?_cons_pos h]
      constructor
      · intro hc
        simp at hc
      · intro hall
        rw [hall a (List.mem_cons_self a t)] at h
        exact absurd h (by simp)
    · have hf : p a = false := by simpa using h
      rw [firstIdx?_cons_neg hf]
      constructor
      · intro hnone b hb
        rcases List.mem_cons.1 hb with rfl | hb'
        · exact hf
        · have ht : firstIdx? p t = none := by
            cases hfix : firstIdx? p t with
            | some k => rw [hfix] at hnone; simp at hnone
            | none => rfl
          exact ih.1 ht b hb'
      · intro hall
        rw [ih.2 fun b hb => hall b (List.mem_cons_of_mem _ hb)]
        rfl

theorem firstIdx?_some_lt {α : Type} {p : α → Bool} {l : List α} {j : Nat}
    (h : firstIdx? p l = some j) : j < l.length := by
  induction l generalizing j with
  | nil => simp [firstIdx?] at h
  | cons a t ih =>
    by_cases hp : p a
    · rw [firstIdx?_cons_pos hp] at h
      cases h
      simp
    · rw [firstIdx?_cons_neg (by simpa using hp : p a = false)] at h
      cases hfix : firstIdx? p t with
      | some k =>
        rw [hfix] at h
        simp at h
        subst h
        have := ih hfix
        simp only [List.length_cons]
        omega
      | none => rw [hfix] at h; simp at h

theorem firstIdx?_some_drop {α : Type} {p : α → Bool} {l : List α} {j : Nat}
    (h : firstIdx? p l = some j) : ∃ b t, l.drop j = b :: t ∧ p b = true := by
  induction l generalizing j with
  | nil => simp [firstIdx?] at h
  | cons a t ih =>
    by_cases hp : p a
    · rw [firstIdx?_cons_pos hp] at h
      cases h
      exact ⟨a, t, rfl, hp⟩
    · rw [firstIdx?_cons_neg (by simpa using hp : p a = false)] at h
      cases hfix : firstIdx? p t with
      | some k =>
        rw [hfix] at h
        simp at h
        subst h
        simpa using ih hfix
      | none => rw [hfix] at h; simp at h

theorem firstIdx?_take {α : Type} {p : α → Bool} {l : List α} {j : Nat}
    (h : firstIdx? p l = some j) : ∀ a ∈ l.take j, p a = false := by
  induction l generalizing j with
  | nil => simp
  | cons a t ih =>
    by_cases hp : p a
    · rw [firstIdx?_cons_pos hp] at h
      cases h
      simp
    · rw [firstIdx?_cons_neg (by simpa using hp : p a = false)] at h
      cases hfix : firstIdx? p t with
      | some k =>
        rw [hfix] at h
        simp at h
        subst h
        intro b hb
        rcases List.mem_cons.1 (by simpa using hb : b ∈ a :: t.take k) with hb' | hb'
        · subst hb'
          simpa using hp
        · exact ih hfix b hb'
      | none => rw [hfix] at h; simp at h

theorem firstIdx?_imp {α : Type} {p q : α → Bool} (hpq : ∀ a, p a = true → q a = true)
    {l : List α} (h : firstIdx? q l = none) : firstIdx? p l = none := by
  rw [firstIdx?_none_iff] at h ⊢
  intro a ha
  cases hcon : p a with
  | false => rfl
  | true =>
    have hq := hpq a hcon
    rw [h a ha] at hq
    exact absurd hq (by simp)

/-- Characterization of the insertion scan: the break index, or the last index when
the loop completes (`i - 1` start offset for the empty list). -/
theorem scanInsert_eq (lvl : Nat) (cmp : Option (List Nat)) (l : List Block) (i : Nat) :
    scanInsert lvl cmp l i =
      match firstIdx? (fun b => isHeadingAt lvl b && insBreak cmp b) l with
      | some j => i + j
      | none => i + l.length - 1 := by
  induction l generalizing i with
  | nil => simp [scanInsert, firstIdx?]
  | cons b rest ih =>
    by_cases hb : isHeadingAt lvl b
    · by_cases hbr : insBreak cmp b
      · rw [@firstIdx?_cons_pos Block (fun x => isHeadingAt lvl x && insBreak cmp x) b
            (by simp [hb, hbr]) rest]
        simp [scanInsert, hb, hbr]
      · rw [@firstIdx?_cons_neg Block (fun x => isHeadingAt lvl x && insBreak cmp x) b
            (by simp [hbr]) rest,
          show scanInsert lvl cmp (b :: rest) i = scanInsert lvl cmp rest (i + 1) by
            simp [scanInsert, hb, hbr],
          ih]
        cases hfix : firstIdx? (fun x => isHeadingAt lvl x && insBreak cmp x) rest with
        | some j => simp; ac_rfl
        | none => simp [List.length_cons]
    · rw [@firstIdx?_cons_neg Block (fun x => isHeadingAt lvl x && insBreak cmp x) b
          (by simp [hb]) rest,
        show scanInsert lvl cmp (b :: rest) i = scanInsert lvl cmp rest (i + 1) by
          simp [scanInsert, hb],
        ih]
      cases hfix : firstIdx? (fun x => isHeadingAt lvl x && insBreak cmp x) rest with
      | some j => simp; ac_rfl
      | none => simp [List.length_cons]

/-- Accumulating phase of the replacement scan: indices keep being appended until
the next heading at `lvl` (which is popped again before the break) or the end of the
list. -/
theorem scanExisting_acc (lvl : Nat) (v : String) (l : List Block) :
    ∀ i r, scanExisting lvl v l i (some r) =
      some (r ++ List.range' i ((firstIdx? (isHeadingAt lvl) l).getD l.length)) := by
  induction l with
  | nil => intro i r; simp [scanExisting, firstIdx?]
  | cons b rest ih =>
    intro i r
    by_cases hb : isHeadingAt lvl b
    · rw [show scanExisting lvl v (b :: rest) i (some r) = some (r ++ [i]).dropLast by
          simp [scanExisting, hb],
        firstIdx?_cons_pos hb]
      simp
    · rw [show scanExisting lvl v (b :: rest) i (some r) =
            scanExisting lvl v rest (i + 1) (some (r ++ [i])) by simp [scanExisting, hb],
        ih, firstIdx?_cons_neg (by simpa using hb : isHeadingAt lvl b = false)]
      cases hfix : firstIdx? (isHeadingAt lvl) rest with
      | some j => simp [List.range'_succ]
      | none => simp [List.range'_succ]

/-- If no heading at `lvl` has the section's version as title, the replacement scan
returns `None`. -/
theorem scanExisting_none (lvl : Nat) (v : String) (l : List Block)
    (h : firstIdx? (matchPred lvl v) l = none) :
    ∀ i, scanExisting lvl v l i none = none := by
  induction l with
  | nil => intro i; simp [scanExisting]
  | cons b rest ih =>
    intro i
    rw [firstIdx?_none_iff] at h
    have hb : matchPred lvl v b = false := h b (by simp)
    have hrest : firstIdx? (matchPred lvl v) rest = none :=
      firstIdx?_none_iff.2 fun a ha => h a (List.mem_cons_of_mem _ ha)
    by_cases hhead : isHeadingAt lvl b
    · have htitle : (headingTitle b == v) = false := by
        simp only [matchPred, hhead, Bool.true_and] at hb
        exact hb
      simp [scanExisting, hhead, htitle, ih hrest]
    · simp [scanExisting, hhead, ih hrest]

/-- Full characterization of the replacement scan: starting at the first heading at
`lvl` titled `v`, the accumulated removal list is the contiguous index range up to
(exclusive) the next heading at `lvl`, or the end of the list. -/
theorem scanExisting_some (lvl : Nat) (v : String) (l : List Block) (j : Nat)
    (h : firstIdx? (matchPred lvl v) l = some j) :
    ∀ i, scanExisting lvl v l i none =
      some (List.range' (i + j)
        (1 + ((firstIdx? (isHeadingAt lvl) (l.drop (j + 1))).getD (l.length - (j + 1))))) := by
  induction l generalizing j with
  | nil => simp [firstIdx?] at h
  | cons b rest ih =>
    intro i
    by_cases hm : matchPred lvl v b
    · rw [firstIdx?_cons_pos hm] at h
      cases h
      have hhead : isHeadingAt lvl b = true := by
        simp only [matchPred, Bool.and_eq_true] at hm
        exact hm.1
      have htitle : (headingTitle b == v) = true := by
        simp only [matchPred, Bool.and_eq_true] at hm
        exact hm.2
      rw [show scanExisting lvl v (b :: rest) i none =
            scanExisting lvl v rest (i + 1) (some [i]) by
          simp [scanExisting, hhead, htitle],
        scanExisting_acc]
      simp only [List.drop_succ_cons, List.drop_zero, List.length_cons, Nat.add_zero,
        Nat.add_sub_cancel, List.nil_append]
      rw [Nat.add_comm 1, List.range'_succ]
      simp
    · have hmf : matchPred lvl v b = false := Bool.eq_false_iff.2 hm
      rw [firstIdx?_cons_neg hmf] at h
      cases hfix : firstIdx? (matchPred lvl v) rest with
      | some k =>
        rw [hfix] at h
        simp at h
        subst h
        by_cases hhead : isHeadingAt lvl b
        · have htitle : (headingTitle b == v) = false := by
            simp only [matchPred, hhead, Bool.true_and] at hmf
            exact hmf
          rw [show scanExisting lvl v (b :: rest) i none =
                scanExisting lvl v rest (i + 1) none by
              simp [scanExisting, hhead, htitle],
            ih k hfix (i + 1)]
          simp only [List.drop_succ_cons, List.length_cons]
          rw [show i + 1 + k = i + (k + 1) by omega,
            show rest.length + 1 - (k + 1 + 1) = rest.length - (k + 1) by omega]
        · rw [show scanExisting lvl v (b :: rest) i none =
                scanExisting lvl v rest (i + 1) none by simp [scanExisting, hhead],
            ih k hfix (i + 1)]
          simp only [List.drop_succ_cons, List.length_cons]
          rw [show i + 1 + k = i + (k + 1) by omega,
            show rest.length + 1 - (k + 1 + 1) = rest.length - (k + 1) by omega]
      | none => rw [hfix] at h; simp at h

/-! ## Helper lemmas: removal and splicing -/

theorem pySort_range' (k : Nat) : ∀ s, pySort (List.range' s k) = List.range' s k := by
  induction k with
  | zero => intro s; rfl
  | succ k ih =>
    intro s
    rw [List.range'_succ]
    have hfold : pySort (s :: List.range' (s + 1) k) =
        insertSorted s (pySort (List.range' (s + 1) k)) := rfl
    rw [hfold, ih]
    cases k with
    | zero => rfl
    | succ k' =>
      rw [List.range'_succ]
      simp [insertSorted]

theorem eraseIdx_eq {α : Type} (l : List α) : ∀ n, l.eraseIdx n = l.take n ++ l.drop (n + 1) := by
  induction l with
  | nil => intro n; simp
  | cons a t ih =>
    intro n
    cases n with
    | zero => simp [List.eraseIdx]
    | succ n => simp [List.eraseIdx, ih n]

theorem removeLoop_range' (k : Nat) :
    ∀ st off (l : List Block), st + k ≤ l.length →
      removeLoop l (List.range' (st + off) k) off = l.take st ++ l.drop (st + k) := by
  induction k with
  | zero =>
    intro st off l _
    simp [removeLoop, List.take_append_drop]
  | succ k ih =>
    intro st off l hlen
    rw [List.range'_succ]
    have hstep : removeLoop l ((st + off) :: List.range' (st + off + 1) k) off =
        removeLoop (l.eraseIdx st) (List.range' (st + off + 1) k) (off + 1) := by
      rw [removeLoop]
      congr 2
      omega
    rw [hstep, show st + off + 1 = st + (off + 1) by omega]
    have hlen' : st + k ≤ (l.eraseIdx st).length := by
      rw [eraseIdx_eq, List.length_append, List.length_take, List.length_drop]
      omega
    rw [ih st (off + 1) (l.eraseIdx st) hlen', eraseIdx_eq]
    have htk : (l.take st).length = st := by
      rw [List.length_take]
      omega
    have hdropA : (l.take st).drop (st + k) = [] :=
      List.drop_eq_nil_of_le (by rw [htk]; omega)
    rw [List.take_append_eq_append_take, List.drop_append_eq_append_drop, htk,
      Nat.sub_self, List.take_zero, List.append_nil, List.take_take, Nat.min_self,
      hdropA, List.nil_append, show st + k - st = k by omega, List.drop_drop,
      show st + 1 + k = st + (k + 1) by omega]

theorem removeIndices_range' (l : List Block) (st k : Nat) (h : st + k ≤ l.length) :
    removeIndices l (List.range' st k) = l.take st ++ l.drop (st + k) := by
  rw [removeIndices, pySort_range']
  have := removeLoop_range' k st 0 l h
  rw [Nat.add_zero] at this
  exact this

theorem pyInsert_at (A B : List Block) (x : Block) {n : Nat} (h : A.length = n) :
    pyInsert (A ++ B) n x = A ++ x :: B := by
  rw [pyInsert, List.take_left' h, List.drop_left' h]

theorem insertChildren_eq (cs : List Block) :
    ∀ (A B : List Block) (base off : Nat), A.length = base + off →
      insertChildren base (A ++ B) cs off = A ++ cs ++ B := by
  induction cs with
  | nil =>
    intro A B base off _
    simp [insertChildren]
  | cons c cs ih =>
    intro A B base off h
    rw [insertChildren, pyInsert_at A B c h,
      show A ++ c :: B = (A ++ [c]) ++ B by simp,
      ih (A ++ [c]) B base (off + 1) (by simp [h]; omega)]
    simp

theorem spliceAt_eq (l : List Block) (i : Nat) (s : VersionSection) (h : i ≤ l.length) :
    spliceAt l i s = l.take i ++ splicedBlocks s ++ l.drop i := by
  have hA : (l.take i).length = i := by
    rw [List.length_take]
    omega
  have hsplit : l = l.take i ++ l.drop i := (List.take_append_drop i l).symm
  have h1 : pyInsert l i s.element = (l.take i ++ [s.element]) ++ l.drop i := by
    conv_lhs => rw [hsplit]
    rw [pyInsert_at (l.take i) (l.drop i) s.element hA]
    simp
  have h2 : pyInsert ((l.take i ++ [s.element]) ++ l.drop i) (i + 1) Block.blankLine =
      (l.take i ++ [s.element, Block.blankLine]) ++ l.drop i := by
    rw [pyInsert_at (l.take i ++ [s.element]) (l.drop i) Block.blankLine
      (by simp [hA] : (l.take i ++ [s.element]).length = i + 1)]
    simp
  have h3 : insertChildren (i + 2) ((l.take i ++ [s.element, Block.blankLine]) ++ l.drop i)
      s.children 0 = (l.take i ++ [s.element, Block.blankLine]) ++ s.children ++ l.drop i :=
    insertChildren_eq s.children _ _ (i + 2) 0
      (by simp [hA] : (l.take i ++ [s.element, Block.blankLine]).length = i + 2 + 0)
  have hunfold : spliceAt l i s =
      (if s.children.isEmpty then
        pyInsert
          (pyInsert
            (insertChildren (i + 2)
              (pyInsert (pyInsert l i s.element) (i + 1) Block.blankLine) s.children 0)
            (i + 2) Block.blankLine)
          (i + 2) noChangesHtml
      else
        insertChildren (i + 2)
          (pyInsert (pyInsert l i s.element) (i + 1) Block.blankLine) s.children 0) := rfl
  by_cases hc : s.children.isEmpty
  · have hcnil : s.children = [] := by simpa using hc
    have h4 : pyInsert ((l.take i ++ [s.element, Block.blankLine]) ++ l.drop i) (i + 2)
        Block.blankLine =
        (l.take i ++ [s.element, Block.blankLine]) ++ Block.blankLine :: l.drop i :=
      pyInsert_at _ _ _ (by simp [hA])
    have h5 : pyInsert
        ((l.take i ++ [s.element, Block.blankLine]) ++ Block.blankLine :: l.drop i) (i + 2)
        noChangesHtml =
        (l.take i ++ [s.element, Block.blankLine]) ++
          noChangesHtml :: Block.blankLine :: l.drop i :=
      pyInsert_at _ _ _ (by simp [hA])
    rw [hunfold, if_pos hc, h1, h2, hcnil]
    simp only [insertChildren]
    rw [h4, h5]
    simp [splicedBlocks, hcnil]
  · rw [hunfold, if_neg hc, h1, h2, h3]
    simp [splicedBlocks, hc]

/-- Net effect of `insert_version_section`: when some heading at `lvl` carries the
section's version as its rendered title, the contiguous range from the first such
heading up to (exclusive) the next heading at `lvl` (or the end) is replaced by the
spliced blocks; otherwise the spliced blocks are inserted at `insertPos`. -/
theorem insert_characterization (doc : List Block) (s : VersionSection) (lvl : Nat) :
    insert_version_section doc s lvl =
      match firstIdx? (matchPred lvl s.version) doc with
      | some st => doc.take st ++ splicedBlocks s ++ doc.drop (nextAtLevel lvl doc st)
      | none =>
        doc.take (insertPos lvl s.version doc) ++ splicedBlocks s ++
          doc.drop (insertPos lvl s.version doc) := by
  have hunfold : insert_version_section doc s lvl =
      if pyTruthy (scanExisting lvl s.version doc 0 none) then
        spliceAt (removeIndices doc ((scanExisting lvl s.version doc 0 none).getD []))
          (((scanExisting lvl s.version doc 0 none).getD []).headD 0) s
      else spliceAt doc (scanInsert lvl (pyVersion? s.version) doc 0) s := rfl
  cases hfix : firstIdx? (matchPred lvl s.version) doc with
  | some st =>
    have hstlt : st < doc.length := firstIdx?_some_lt hfix
    have hscan := scanExisting_some lvl s.version doc st hfix 0
    rw [Nat.zero_add] at hscan
    cases hnx : firstIdx? (isHeadingAt lvl) (doc.drop (st + 1)) with
    | some k =>
      rw [hnx] at hscan
      simp only [Option.getD_some] at hscan
      have hklt : k < doc.length - (st + 1) := by
        have := firstIdx?_some_lt hnx
        rw [List.length_drop] at this
        exact this
      have hen : nextAtLevel lvl doc st = st + 1 + k := by
        unfold nextAtLevel
        rw [hnx]
      rw [hunfold, hscan, show 1 + k = k + 1 by omega, List.range'_succ]
      rw [show pyTruthy (some (st :: List.range' (st + 1) k)) = true from rfl, if_pos rfl]
      simp only [Option.getD_some, List.headD_cons]
      rw [show (st :: List.range' (st + 1) k) = List.range' st (k + 1) by
          rw [List.range'_succ],
        removeIndices_range' doc st (k + 1) (by omega)]
      have hstle : st ≤ (doc.take st ++ doc.drop (st + (k + 1))).length := by
        rw [List.length_append, List.length_take]
        omega
      rw [spliceAt_eq _ _ _ hstle,
        List.take_left' (by rw [List.length_take]; omega),
        List.drop_left' (by rw [List.length_take]; omega), hen,
        show st + (k + 1) = st + 1 + k by omega]
    | none =>
      rw [hnx] at hscan
      simp only [Option.getD_none] at hscan
      have hen : nextAtLevel lvl doc st = doc.length := by
        unfold nextAtLevel
        rw [hnx]
      rw [hunfold, hscan, show 1 + (doc.length - (st + 1)) = (doc.length - (st + 1)) + 1
          by omega, List.range'_succ]
      rw [show pyTruthy (some (st :: List.range' (st + 1) (doc.length - (st + 1)))) = true
          from rfl, if_pos rfl]
      simp only [Option.getD_some, List.headD_cons]
      rw [show (st :: List.range' (st + 1) (doc.length - (st + 1))) =
          List.range' st ((doc.length - (st + 1)) + 1) by rw [List.range'_succ],
        removeIndices_range' doc st ((doc.length - (st + 1)) + 1) (by omega)]
      have hstle : st ≤ (doc.take st ++ doc.drop (st + ((doc.length - (st + 1)) + 1))).length := by
        rw [List.length_append, List.length_take]
        omega
      rw [spliceAt_eq _ _ _ hstle,
        List.take_left' (by rw [List.length_take]; omega),
        List.drop_left' (by rw [List.length_take]; omega), hen,
        show st + ((doc.length - (st + 1)) + 1) = doc.length by omega]
  | none =>
    have hscan := scanExisting_none lvl s.version doc hfix 0
    have hple : insertPos lvl s.version doc ≤ doc.length := by
      unfold insertPos
      cases hnx : firstIdx? (fun b => isHeadingAt lvl b && insBreak (pyVersion? s.version) b)
          doc with
      | some j =>
        have := firstIdx?_some_lt hnx
        simp
        omega
      | none => simp
    have hpos : scanInsert lvl (pyVersion? s.version) doc 0 = insertPos lvl s.version doc := by
      rw [scanInsert_eq]
      unfold insertPos
      cases hnx : firstIdx? (fun b => isHeadingAt lvl b && insBreak (pyVersion? s.version) b)
          doc with
      | some j => simp
      | none => simp
    rw [hunfold, hscan, show pyTruthy none = false from rfl, if_neg (by simp), hpos,
      spliceAt_eq _ _ _ hple]

/-- Single-formula restatement of `insert_characterization`. -/
theorem insert_eq_splice (doc : List Block) (s : VersionSection) (lvl : Nat) :
    insert_version_section doc s lvl =
      doc.take (spliceFrom lvl s.version doc) ++ splicedBlocks s ++
        doc.drop (spliceTo lvl s.version doc) := by
  rw [insert_characterization]
  unfold spliceFrom spliceTo
  cases hfix : firstIdx? (matchPred lvl s.version) doc with
  | some st => rfl
  | none => rfl


/-! ## Claim C1: the replacement path -/

/-- C1 (amended): when some heading at the target level carries the section's
version string as its rendered title, `insert_version_section` removes exactly the
contiguous block range from the first such heading up to (exclusive) the next
heading at the same level - or the end of the block sequence - and splices, at the
removed range's start index, the new heading, a blank-line marker and the section's
children (childless sections additionally get the `<!-- No changes -->` HTML block
and one more blank-line marker, as `splicedBlocks` records); every block outside the
removed range is kept, in order. -/
theorem C1_replacement_splice (doc : List Block) (s : VersionSection) (lvl st : Nat)
    (h : firstIdx? (matchPred lvl s.version) doc = some st) :
    insert_version_section doc s lvl =
      doc.take st ++ splicedBlocks s ++ doc.drop (nextAtLevel lvl doc st) := by
  rw [insert_characterization, h]

/-- Witness for C1: replacing version `1.0` in a concrete two-version changelog. -/
theorem C1_replacement_splice_witness :
    firstIdx? (matchPred 2 "1.0")
      [Block.heading 1 "Changelog", Block.heading 2 "1.0", Block.para "a",
        Block.heading 2 "0.9", Block.para "b"] = some 1 ∧
    insert_version_section
      [Block.heading 1 "Changelog", Block.heading 2 "1.0", Block.para "a",
        Block.heading 2 "0.9", Block.para "b"]
      ⟨"1.0", Block.heading 2 "1.0", [Block.para "c"]⟩ 2 =
      List.take 1
        [Block.heading 1 "Changelog", Block.heading 2 "1.0", Block.para "a",
          Block.heading 2 "0.9", Block.para "b"] ++
      splicedBlocks ⟨"1.0", Block.heading 2 "1.0", [Block.para "c"]⟩ ++
      List.drop
        (nextAtLevel 2
          [Block.heading 1 "Changelog", Block.heading 2 "1.0", Block.para "a",
            Block.heading 2 "0.9", Block.para "b"] 1)
        [Block.heading 1 "Changelog", Block.heading 2 "1.0", Block.para "a",
          Block.heading 2 "0.9", Block.para "b"] :=
  ⟨by decide,
    C1_replacement_splice
      [Block.heading 1 "Changelog", Block.heading 2 "1.0", Block.para "a",
        Block.heading 2 "0.9", Block.para "b"]
      ⟨"1.0", Block.heading 2 "1.0", [Block.para "c"]⟩ 2 1 (by decide)⟩

/-- Counterexample to C1 as stated: for a `VersionSection` with an empty children
list the code splices two extra blocks (the `<!-- No changes -->` HTML block and a
blank-line marker) beyond the heading, the blank-line marker and the (empty)
children that the claim describes, so the result is not
`take start ++ [element, blank] ++ children ++ drop next`. -/
theorem C1_counterexample :
    insert_version_section [Block.heading 2 "1.0", Block.para "a"]
      ⟨"1.0", Block.heading 2 "1.0", []⟩ 2 ≠
      List.take 0 [Block.heading 2 "1.0", Block.para "a"] ++
        [Block.heading 2 "1.0", Block.blankLine] ++ ([] : List Block) ++
        List.drop (nextAtLevel 2 [Block.heading 2 "1.0", Block.para "a"] 0)
          [Block.heading 2 "1.0", Block.para "a"] := by
  decide

/-! ## Claim C8: the empty-children splice -/

/-- C8 (amended): for a `VersionSection` with an empty children list the spliced
run is the new heading, a blank-line marker, then the raw HTML block
`<!-- No changes -->` followed by a blank-line marker (the HTML block is inserted
at `i + 2` after the blank-line marker was inserted there, so it lands before it). -/
theorem C8_empty_children_splice (doc : List Block) (s : VersionSection) (lvl : Nat)
    (h : s.children = []) :
    insert_version_section doc s lvl =
      doc.take (spliceFrom lvl s.version doc) ++
        [s.element, Block.blankLine, noChangesHtml, Block.blankLine] ++
        doc.drop (spliceTo lvl s.version doc) := by
  rw [insert_eq_splice]
  simp [splicedBlocks, h]

/-- Witness for C8: inserting an empty section into an empty document. -/
theorem C8_empty_children_splice_witness :
    (⟨"1.0", Block.heading 2 "1.0", []⟩ : VersionSection).children = [] ∧
    insert_version_section [] ⟨"1.0", Block.heading 2 "1.0", []⟩ 2 =
      List.take (spliceFrom 2 "1.0" []) [] ++
        [Block.heading 2 "1.0", Block.blankLine, noChangesHtml, Block.blankLine] ++
        List.drop (spliceTo 2 "1.0" []) [] :=
  ⟨rfl, C8_empty_children_splice [] ⟨"1.0", Block.heading 2 "1.0", []⟩ 2 rfl⟩

/-- Counterexample to C8 as stated: the claim puts the blank-line marker before the
HTML block (`heading, blank, blank, html`); the code splices
`heading, blank, html, blank`. -/
theorem C8_counterexample :
    insert_version_section [] ⟨"1.0", Block.heading 2 "1.0", []⟩ 2 ≠
      [Block.heading 2 "1.0", Block.blankLine, Block.blankLine, noChangesHtml] := by
  decide

/-! ## Claim C5: unparseable version strings -/

/-- C5 (amended): a section whose version string neither parses as a version nor
matches any existing heading's title is inserted - without raising - immediately
before the first heading at the target level; when there is no such heading it is
inserted at index `length - 1` (before the final block; index 0 for an empty
document), not at index 0 in general. -/
theorem C5_unparseable_insert (doc : List Block) (s : VersionSection) (lvl : Nat)
    (h1 : pyVersion? s.version = none)
    (h2 : firstIdx? (matchPred lvl s.version) doc = none) :
    insert_version_section doc s lvl =
      doc.take ((firstIdx? (isHeadingAt lvl) doc).getD (doc.length - 1)) ++
        splicedBlocks s ++
        doc.drop ((firstIdx? (isHeadingAt lvl) doc).getD (doc.length - 1)) := by
  rw [insert_characterization, h2]
  have hpred : (fun b => isHeadingAt lvl b && insBreak (pyVersion? s.version) b) =
      fun b => isHeadingAt lvl b := by
    funext b
    rw [h1]
    cases isHeadingAt lvl b <;> rfl
  unfold insertPos
  rw [hpred]
  cases hfix : firstIdx? (isHeadingAt lvl) doc with
  | some j => rfl
  | none => rfl

/-- Witness for C5: inserting an unparseable version into a changelog whose first
level-2 heading sits at index 2. -/
theorem C5_unparseable_insert_witness :
    pyVersion? "abc" = none ∧
    firstIdx? (matchPred 2 "abc")
      [Block.heading 1 "Changelog", Block.blankLine, Block.heading 2 "0.1.0",
        Block.blankLine, Block.para "x", Block.blankLine] = none ∧
    insert_version_section
      [Block.heading 1 "Changelog", Block.blankLine, Block.heading 2 "0.1.0",
        Block.blankLine, Block.para "x", Block.blankLine]
      ⟨"abc", Block.heading 2 "abc", []⟩ 2 =
      List.take ((firstIdx? (isHeadingAt 2)
          [Block.heading 1 "Changelog", Block.blankLine, Block.heading 2 "0.1.0",
            Block.blankLine, Block.para "x", Block.blankLine]).getD 5)
        [Block.heading 1 "Changelog", Block.blankLine, Block.heading 2 "0.1.0",
          Block.blankLine, Block.para "x", Block.blankLine] ++
      splicedBlocks ⟨"abc", Block.heading 2 "abc", []⟩ ++
      List.drop ((firstIdx? (isHeadingAt 2)
          [Block.heading 1 "Changelog", Block.blankLine, Block.heading 2 "0.1.0",
            Block.blankLine, Block.para "x", Block.blankLine]).getD 5)
        [Block.heading 1 "Changelog", Block.blankLine, Block.heading 2 "0.1.0",
          Block.blankLine, Block.para "x", Block.blankLine] :=
  ⟨by decide, by decide,
    C5_unparseable_insert
      [Block.heading 1 "Changelog", Block.blankLine, Block.heading 2 "0.1.0",
        Block.blankLine, Block.para "x", Block.blankLine]
      ⟨"abc", Block.heading 2 "abc", []⟩ 2 (by decide) (by decide)⟩

/-- Counterexample to C5 as stated: with an unparseable, unmatched version string
the new section is not placed at position 0 of the block sequence - here it lands at
index 2, right before the first level-2 heading, leaving `# Changelog` first. -/
theorem C5_counterexample :
    pyVersion? "abc" = none ∧
    insert_version_section
      [Block.heading 1 "Changelog", Block.blankLine, Block.heading 2 "0.1.0",
        Block.blankLine, Block.para "x", Block.blankLine]
      ⟨"abc", Block.heading 2 "abc", []⟩ 2 =
      [Block.heading 1 "Changelog", Block.blankLine, Block.heading 2 "abc",
        Block.blankLine, noChangesHtml, Block.blankLine, Block.heading 2 "0.1.0",
        Block.blankLine, Block.para "x", Block.blankLine] ∧
    (insert_version_section
      [Block.heading 1 "Changelog", Block.blankLine, Block.heading 2 "0.1.0",
        Block.blankLine, Block.para "x", Block.blankLine]
      ⟨"abc", Block.heading 2 "abc", []⟩ 2).head? ≠ some (Block.heading 2 "abc") := by
  refine ⟨by decide, by decide, by decide⟩

/-! ## Claim C6: documents with no heading at the target level -/

/-- C6 (amended): when the document has no heading at the target level at all, the
insertion scan completes with the Python loop variable at the last index, so the new
section is spliced at index `length - 1` - immediately before the final block - and
only for an empty document at the end (index 0). -/
theorem C6_no_heading_insert (doc : List Block) (s : VersionSection) (lvl : Nat)
    (h : firstIdx? (isHeadingAt lvl) doc = none) :
    insert_version_section doc s lvl =
      doc.take (doc.length - 1) ++ splicedBlocks s ++ doc.drop (doc.length - 1) := by
  have hmatch : firstIdx? (matchPred lvl s.version) doc = none :=
    firstIdx?_imp (fun b hb => by
      simp only [matchPred, Bool.and_eq_true] at hb
      exact hb.1) h
  have hbreak : firstIdx? (fun b => isHeadingAt lvl b && insBreak (pyVersion? s.version) b)
      doc = none :=
    firstIdx?_imp (fun b hb => by
      simp only [Bool.and_eq_true] at hb
      exact hb.1) h
  rw [insert_characterization, hmatch]
  unfold insertPos
  rw [hbreak]

/-- Witness for C6: inserting into `Changelog.new()`, which has no level-2 heading. -/
theorem C6_no_heading_insert_witness :
    firstIdx? (isHeadingAt 2) changelogNew = none ∧
    insert_version_section changelogNew
      ⟨"0.1.0", Block.heading 2 "0.1.0", [Block.para "x"]⟩ 2 =
      changelogNew.take (changelogNew.length - 1) ++
        splicedBlocks ⟨"0.1.0", Block.heading 2 "0.1.0", [Block.para "x"]⟩ ++
        changelogNew.drop (changelogNew.length - 1) :=
  ⟨by decide,
    C6_no_heading_insert changelogNew
      ⟨"0.1.0", Block.heading 2 "0.1.0", [Block.para "x"]⟩ 2 (by decide)⟩

/-- Counterexample to C6 as stated: a document consisting of one paragraph has no
level-2 heading, yet the new section is not appended at the end of the block
sequence - it is inserted before the paragraph, which stays last. -/
theorem C6_counterexample :
    insert_version_section [Block.para "hello"]
      ⟨"1.0", Block.heading 2 "1.0", [Block.para "x"]⟩ 2 =
      [Block.heading 2 "1.0", Block.blankLine, Block.para "x", Block.para "hello"] ∧
    insert_version_section [Block.para "hello"]
      ⟨"1.0", Block.heading 2 "1.0", [Block.para "x"]⟩ 2 ≠
      [Block.para "hello"] ++
        splicedBlocks ⟨"1.0", Block.heading 2 "1.0", [Block.para "x"]⟩ := by
  refine ⟨by decide, by decide⟩

/-! ## Claim C2: the descending-order invariant -/

theorem lexlt_irrefl : ∀ a, lexlt a a = false := by
  intro a
  induction a with
  | nil => rfl
  | cons x xs ih => simp [lexlt, ih]

theorem lexlt_trans : ∀ b a c, lexlt a b = true → lexlt b c = true → lexlt a c = true := by
  intro b
  induction b with
  | nil =>
    intro a c h1 _
    rw [show lexlt a [] = false from by cases a <;> rfl] at h1
    exact absurd h1 (by simp)
  | cons y ys ih =>
    intro a c h1 h2
    cases c with
    | nil =>
      rw [show lexlt (y :: ys) [] = false from rfl] at h2
      exact absurd h2 (by simp)
    | cons z zs =>
      cases a with
      | nil => rfl
      | cons x xs =>
        simp only [lexlt, Bool.or_eq_true, Bool.and_eq_true, decide_eq_true_eq,
          beq_iff_eq] at h1 h2 ⊢
        rcases h1 with h1 | ⟨rfl, h1⟩
        · rcases h2 with h2 | ⟨rfl, _⟩
          · exact Or.inl (Nat.lt_trans h1 h2)
          · exact Or.inl h1
        · rcases h2 with h2 | ⟨rfl, h2⟩
          · exact Or.inl h2
          · exact Or.inr ⟨rfl, ih xs zs h1 h2⟩

theorem lexlt_trichot : ∀ a b, a = b ∨ lexlt a b = true ∨ lexlt b a = true := by
  intro a
  induction a with
  | nil =>
    intro b
    cases b with
    | nil => exact Or.inl rfl
    | cons y ys => exact Or.inr (Or.inl rfl)
  | cons x xs ih =>
    intro b
    cases b with
    | nil => exact Or.inr (Or.inr rfl)
    | cons y ys =>
      rcases Nat.lt_trichotomy x y with hxy | rfl | hxy
      · refine Or.inr (Or.inl ?_)
        simp [lexlt, hxy]
      · rcases ih ys with rfl | h | h
        · exact Or.inl rfl
        · refine Or.inr (Or.inl ?_)
          simp [lexlt, h]
        · refine Or.inr (Or.inr ?_)
          simp [lexlt, h]
      · refine Or.inr (Or.inr ?_)
        simp [lexlt, hxy]

theorem descB_self (a : String) : descB a a = false := by
  rw [descB]
  cases pyVersion? a with
  | none => rfl
  | some x => simp [lexlt_irrefl]

theorem descB_ne {a b : String} (h : descB a b = true) : a ≠ b := by
  intro heq
  subst heq
  rw [descB_self] at h
  exact absurd h (by simp)

theorem headingTitlesAt_append (lvl : Nat) (X Y : List Block) :
    headingTitlesAt lvl (X ++ Y) = headingTitlesAt lvl X ++ headingTitlesAt lvl Y :=
  List.filterMap_append X Y _

theorem mem_headingTitlesAt {lvl : Nat} {doc : List Block} {t : String} :
    t ∈ headingTitlesAt lvl doc ↔ Block.heading lvl t ∈ doc := by
  rw [headingTitlesAt, List.mem_filterMap]
  constructor
  · rintro ⟨b, hb, hf⟩
    cases b with
    | heading l t' =>
      have hf' : (if l == lvl then some t' else none) = some t := hf
      by_cases hl : (l == lvl) = true
      · rw [if_pos hl] at hf'
        cases hf'
        rw [show l = lvl from by simpa using hl] at hb
        exact hb
      · rw [if_neg hl] at hf'
        cases hf'
    | blankLine => exact Option.noConfusion hf
    | htmlBlock b => exact Option.noConfusion hf
    | para p => exact Option.noConfusion hf
    | bulletList ls => exact Option.noConfusion hf
  · intro hmem
    exact ⟨Block.heading lvl t, hmem, by simp⟩

theorem headingTitlesAt_eq_nil {lvl : Nat} {X : List Block}
    (h : ∀ c ∈ X, isHeadingAt lvl c = false) : headingTitlesAt lvl X = [] := by
  rw [headingTitlesAt, List.filterMap_eq_nil_iff]
  intro b hb
  cases b with
  | heading l t =>
    have hh := h _ hb
    rw [show isHeadingAt lvl (Block.heading l t) = (l == lvl) from rfl] at hh
    show (if l == lvl then some t else none) = none
    rw [if_neg (by simp [hh])]
  | blankLine => rfl
  | htmlBlock b => rfl
  | para p => rfl
  | bulletList ls => rfl

theorem headingTitlesAt_splicedBlocks (s : VersionSection)
    (hel : s.element = Block.heading 2 s.version)
    (hch : ∀ c ∈ s.children, isHeadingAt 2 c = false) :
    headingTitlesAt 2 (splicedBlocks s) = [s.version] := by
  rw [splicedBlocks, hel]
  by_cases hc : s.children.isEmpty
  · rw [if_pos hc]
    rfl
  · rw [if_neg hc,
      show ([Block.heading 2 s.version, Block.blankLine] ++ s.children) =
        [Block.heading 2 s.version] ++ ([Block.blankLine] ++ s.children) by simp,
      headingTitlesAt_append, headingTitlesAt_append,
      headingTitlesAt_eq_nil (X := [Block.blankLine]) (by intro c hc'; simp at hc'; simp [hc', isHeadingAt]),
      headingTitlesAt_eq_nil hch]
    rfl

theorem drop_last_append {X Y : List Block} (h : Y ≠ []) :
    (X ++ Y).drop ((X ++ Y).length - 1) = Y.drop (Y.length - 1) := by
  have hY : 1 ≤ Y.length := by
    cases Y with
    | nil => exact absurd rfl h
    | cons a t => simp
  rw [List.drop_append_eq_append_drop, List.length_append,
    List.drop_eq_nil_of_le (by omega), List.nil_append,
    show X.length + Y.length - 1 - X.length = Y.length - 1 by omega]

/-- Titles of a list starting with a heading at the level. -/
theorem headingTitlesAt_cons_heading (lvl : Nat) (t : String) (tl : List Block) :
    headingTitlesAt lvl (Block.heading lvl t :: tl) = t :: headingTitlesAt lvl tl := by
  simp [headingTitlesAt]

theorem chainInv_insert (keys : List (List Nat)) (doc : List Block) (s : VersionSection)
    (r : List Nat) (hinv : chainInv keys doc) (hparse : pyVersion? s.version = some r)
    (hel : s.element = Block.heading 2 s.version)
    (hch : ∀ c ∈ s.children, isHeadingAt 2 c = false)
    (hfresh : vKey r ∉ keys) :
    chainInv (vKey r :: keys) (insert_version_section doc s 2) := by
  obtain ⟨hlast, hmem, hpair⟩ := hinv
  have hnonempty : doc ≠ [] := by
    intro h
    rw [h] at hlast
    exact List.noConfusion hlast
  have hlen1 : 1 ≤ doc.length := by
    cases doc with
    | nil => exact absurd rfl hnonempty
    | cons _ _ => simp
  have htitle_facts : ∀ t ∈ headingTitlesAt 2 doc,
      ∃ w, pyVersion? t = some w ∧ vKey w ∈ keys ∧ vKey w ≠ vKey r := by
    intro t ht
    obtain ⟨w, hw, hk⟩ := hmem t ht
    refine ⟨w, hw, hk, fun he => hfresh ?_⟩
    rw [← he]
    exact hk
  have hmatch : firstIdx? (matchPred 2 s.version) doc = none := by
    cases hfx : firstIdx? (matchPred 2 s.version) doc with
    | none => rfl
    | some st =>
      exfalso
      obtain ⟨b, tl, hdrop, hpb⟩ := firstIdx?_some_drop hfx
      have hbmem : b ∈ doc := by
        refine List.drop_subset st doc ?_
        rw [hdrop]
        exact List.mem_cons_self b tl
      have hpb' := hpb
      rw [matchPred, Bool.and_eq_true] at hpb'
      have hbeq : b = Block.heading 2 s.version := by
        cases b with
        | heading l t' =>
          have hl : l = 2 := by simpa [isHeadingAt] using hpb'.1
          have ht' : t' = s.version := by simpa [headingTitle] using hpb'.2
          rw [hl, ht']
        | blankLine => simp [isHeadingAt] at hpb'
        | htmlBlock x => simp [isHeadingAt] at hpb'
        | para x => simp [isHeadingAt] at hpb'
        | bulletList x => simp [isHeadingAt] at hpb'
      rw [hbeq] at hbmem
      obtain ⟨w, hw, _, hne⟩ := htitle_facts _ (mem_headingTitlesAt.2 hbmem)
      rw [hparse] at hw
      cases hw
      exact hne rfl
  have hsplitT : ∀ p, headingTitlesAt 2 doc =
      headingTitlesAt 2 (doc.take p) ++ headingTitlesAt 2 (doc.drop p) := by
    intro p
    conv_lhs => rw [← List.take_append_drop p doc]
    exact headingTitlesAt_append 2 _ _
  have hgt : ∀ t, Block.heading 2 t ∈ doc →
      (isHeadingAt 2 (Block.heading 2 t) && insBreak (some r) (Block.heading 2 t)) = false →
      descB t s.version = true := by
    intro t hmemt hpf
    obtain ⟨w, hw, _, hne⟩ := htitle_facts t (mem_headingTitlesAt.2 hmemt)
    have hh : isHeadingAt 2 (Block.heading 2 t) = true := by simp [isHeadingAt]
    rw [hh, Bool.true_and] at hpf
    have hbr : insBreak (some r) (Block.heading 2 t) =
        (match pyVersion? t with
          | none => true
          | some w => vltB w r) := rfl
    rw [hbr, hw] at hpf
    have hnlt : lexlt (vKey w) (vKey r) = false := hpf
    rcases lexlt_trichot (vKey r) (vKey w) with he | hlt | hlt
    · exact absurd he.symm hne
    · rw [descB, hw, hparse]
      exact hlt
    · rw [hlt] at hnlt
      exact Bool.noConfusion hnlt
  have hassemble : ∀ p, p ≤ doc.length - 1 →
      (∀ t ∈ headingTitlesAt 2 (doc.take p), descB t s.version = true) →
      (∀ t ∈ headingTitlesAt 2 (doc.drop p), descB s.version t = true) →
      chainInv (vKey r :: keys) (doc.take p ++ splicedBlocks s ++ doc.drop p) := by
    intro p hple hA hB
    have hplen : p < doc.length := by omega
    have hdropne : doc.drop p ≠ [] := by
      intro hnil
      have := congrArg List.length hnil
      rw [List.length_drop] at this
      simp at this
      omega
    have hAmem : ∀ t ∈ headingTitlesAt 2 (doc.take p), t ∈ headingTitlesAt 2 doc := by
      intro t ht
      rw [hsplitT p]
      exact List.mem_append.2 (Or.inl ht)
    have hBmem : ∀ t ∈ headingTitlesAt 2 (doc.drop p), t ∈ headingTitlesAt 2 doc := by
      intro t ht
      rw [hsplitT p]
      exact List.mem_append.2 (Or.inr ht)
    refine ⟨?_, ?_, ?_⟩
    · rw [show doc.take p ++ splicedBlocks s ++ doc.drop p =
          (doc.take p ++ splicedBlocks s) ++ doc.drop p by simp,
        drop_last_append hdropne, List.length_drop, List.drop_drop,
        show p + (doc.length - p - 1) = doc.length - 1 by omega]
      exact hlast
    · intro t ht
      rw [headingTitlesAt_append, headingTitlesAt_append,
        headingTitlesAt_splicedBlocks s hel hch] at ht
      rcases List.mem_append.1 ht with ht' | htB
      · rcases List.mem_append.1 ht' with htA | htv
        · obtain ⟨w, hw, hk⟩ := hmem t (hAmem t htA)
          exact ⟨w, hw, List.mem_cons_of_mem _ hk⟩
        · have : t = s.version := by simpa using htv
          rw [this, hparse]
          exact ⟨r, rfl, List.mem_cons_self _ _⟩
      · obtain ⟨w, hw, hk⟩ := hmem t (hBmem t htB)
        exact ⟨w, hw, List.mem_cons_of_mem _ hk⟩
    · rw [headingTitlesAt_append, headingTitlesAt_append,
        headingTitlesAt_splicedBlocks s hel hch, List.append_assoc]
      have hpair' := hpair
      rw [hsplitT p] at hpair'
      obtain ⟨hpA, hpB, hAB⟩ := List.pairwise_append.1 hpair'
      rw [List.pairwise_append]
      refine ⟨hpA, ?_, ?_⟩
      · rw [show ([s.version] ++ headingTitlesAt 2 (doc.drop p)) =
            s.version :: headingTitlesAt 2 (doc.drop p) from rfl]
        exact List.pairwise_cons.2 ⟨hB, hpB⟩
      · intro a ha b hb
        rcases List.mem_append.1 hb with hbv | hbB
        · have : b = s.version := by simpa using hbv
          rw [this]
          exact hA a ha
        · exact hAB a ha b hbB
  rw [insert_characterization, hmatch]
  have hposEq : insertPos 2 s.version doc =
      match firstIdx? (fun b => isHeadingAt 2 b && insBreak (some r) b) doc with
      | some j => j
      | none => doc.length - 1 := by
    unfold insertPos
    rw [hparse]
  cases hfx : firstIdx? (fun b => isHeadingAt 2 b && insBreak (some r) b) doc with
  | some j =>
    have hp : insertPos 2 s.version doc = j := by rw [hposEq, hfx]
    rw [hp]
    have hjlt : j < doc.length := firstIdx?_some_lt hfx
    refine hassemble j (by omega) ?_ ?_
    · intro t ht
      have hhead : Block.heading 2 t ∈ doc.take j := mem_headingTitlesAt.1 ht
      exact hgt t (List.take_subset j doc hhead) (firstIdx?_take hfx _ hhead)
    · obtain ⟨b, tl, hdrop, hpb⟩ := firstIdx?_some_drop hfx
      rw [Bool.and_eq_true] at hpb
      obtain ⟨tb, rfl⟩ : ∃ tb, b = Block.heading 2 tb := by
        cases b with
        | heading l t' =>
          have hl : l = 2 := by simpa [isHeadingAt] using hpb.1
          exact ⟨t', by rw [hl]⟩
        | blankLine => simp [isHeadingAt] at hpb
        | htmlBlock x => simp [isHeadingAt] at hpb
        | para x => simp [isHeadingAt] at hpb
        | bulletList x => simp [isHeadingAt] at hpb
      have hdropT : headingTitlesAt 2 (doc.drop j) = tb :: headingTitlesAt 2 tl := by
        rw [hdrop, headingTitlesAt_cons_heading]
      have htbmem : tb ∈ headingTitlesAt 2 doc := by
        rw [hsplitT j]
        refine List.mem_append.2 (Or.inr ?_)
        rw [hdropT]
        exact List.mem_cons_self _ _
      obtain ⟨wb, hwb, _, _⟩ := htitle_facts tb htbmem
      have hvb : lexlt (vKey wb) (vKey r) = true := by
        have hbr : insBreak (some r) (Block.heading 2 tb) =
            (match pyVersion? tb with
              | none => true
              | some w => vltB w r) := rfl
        have := hpb.2
        rw [hbr, hwb] at this
        exact this
      have hfirst : descB s.version tb = true := by
        rw [descB, hparse, hwb]
        exact hvb
      have hpairdrop : (headingTitlesAt 2 (doc.drop j)).Pairwise
          (fun a b => descB a b = true) := by
        have hpair' := hpair
        rw [hsplitT j] at hpair'
        exact (List.pairwise_append.1 hpair').2.1
      intro t ht
      rw [hdropT] at ht
      rcases List.mem_cons.1 ht with rfl | htl
      · exact hfirst
      · have hdesc : descB tb t = true := by
          rw [hdropT] at hpairdrop
          exact (List.pairwise_cons.1 hpairdrop).1 t htl
        have htmem : t ∈ headingTitlesAt 2 doc := by
          rw [hsplitT j]
          refine List.mem_append.2 (Or.inr ?_)
          rw [hdropT]
          exact List.mem_cons_of_mem _ htl
        obtain ⟨wt, hwt, _, _⟩ := htitle_facts t htmem
        have h1 : lexlt (vKey wt) (vKey wb) = true := by
          have := hdesc
          rw [descB, hwb, hwt] at this
          exact this
        rw [descB, hparse, hwt]
        exact lexlt_trans (vKey wb) _ _ h1 hvb
  | none =>
    have hp : insertPos 2 s.version doc = doc.length - 1 := by rw [hposEq, hfx]
    rw [hp]
    refine hassemble (doc.length - 1) (by omega) ?_ ?_
    · intro t ht
      have hhead : Block.heading 2 t ∈ doc.take (doc.length - 1) := mem_headingTitlesAt.1 ht
      refine hgt t (List.take_subset _ doc hhead) ?_
      exact firstIdx?_none_iff.1 hfx _ (List.take_subset _ doc hhead)
    · intro t ht
      rw [hlast] at ht
      have : headingTitlesAt 2 [Block.blankLine] = [] := rfl
      rw [this] at ht
      exact absurd ht (List.not_mem_nil t)

theorem chainInv_foldl (secs : List VersionSection) :
    ∀ (keys : List (List Nat)) (doc : List Block), chainInv keys doc →
      (∀ s ∈ secs, wfSectionB s = true) →
      (keys ++ secs.filterMap keyOf).Nodup →
      ∃ keys', chainInv keys'
        (secs.foldl (fun d s => insert_version_section d s 2) doc) := by
  induction secs with
  | nil =>
    intro keys doc hinv _ _
    exact ⟨keys, hinv⟩
  | cons s rest ih =>
    intro keys doc hinv hwf hnodup
    have hwfs := hwf s (List.mem_cons_self s rest)
    rw [wfSectionB, Bool.and_eq_true, Bool.and_eq_true] at hwfs
    obtain ⟨⟨hsome, helb⟩, hchb⟩ := hwfs
    obtain ⟨r, hparse⟩ := Option.isSome_iff_exists.1 hsome
    have hel : s.element = Block.heading 2 s.version := by simpa using helb
    have hch : ∀ c ∈ s.children, isHeadingAt 2 c = false := by
      intro c hc
      have := (List.all_eq_true.1 hchb) c hc
      simpa using this
    have hkeyOf : keyOf s = some (vKey r) := by
      rw [keyOf, hparse]
      rfl
    have hperm : (keys ++ List.filterMap keyOf (s :: rest)).Perm
        ((vKey r :: keys) ++ List.filterMap keyOf rest) := by
      rw [List.filterMap_cons_some hkeyOf]
      exact List.perm_middle
    have hnodup' : ((vKey r :: keys) ++ List.filterMap keyOf rest).Nodup :=
      (hperm.nodup hnodup)
    have hfresh : vKey r ∉ keys := by
      have h1 : (vKey r :: (keys ++ List.filterMap keyOf rest)).Nodup := by
        simpa using hnodup'
      intro hmem
      exact (List.nodup_cons.1 h1).1 (List.mem_append.2 (Or.inl hmem))
    have hstep := chainInv_insert keys doc s r hinv hparse hel hch hfresh
    have hwfrest : ∀ x ∈ rest, wfSectionB x = true := fun x hx =>
      hwf x (List.mem_cons_of_mem _ hx)
    exact ih (vKey r :: keys) (insert_version_section doc s 2) hstep hwfrest hnodup'

/-- C2 (amended): starting from `Changelog.new()`, after any sequence of
`insert_version_section` calls with well-formed sections whose version strings
parse to pairwise distinct versions, the rendered titles of the level-2 headings,
top to bottom, carry strictly descending versions, and no title occurs twice
(at most one section per version string).  (As stated, the claim assumed only the
version *strings* distinct; distinct strings such as `"0.1"` and `"0.1.0"` parse to
equal versions, which breaks strictness - see the counterexample.) -/
theorem C2_descending_invariant (secs : List VersionSection)
    (hwf : ∀ s ∈ secs, wfSectionB s = true)
    (hkeys : (secs.filterMap keyOf).Nodup) :
    (headingTitlesAt 2 (insertAllSections secs)).Pairwise (fun a b => descB a b = true) ∧
    (headingTitlesAt 2 (insertAllSections secs)).Nodup := by
  have hinit : chainInv [] changelogNew := by
    refine ⟨rfl, ?_, ?_⟩
    · intro t ht
      have hempty : headingTitlesAt 2 changelogNew = [] := rfl
      rw [hempty] at ht
      exact absurd ht (List.not_mem_nil t)
    · have : headingTitlesAt 2 changelogNew = [] := rfl
      rw [this]
      exact List.Pairwise.nil
  obtain ⟨keys', hinv⟩ := chainInv_foldl secs [] changelogNew hinit hwf (by simpa using hkeys)
  refine ⟨hinv.2.2, ?_⟩
  exact hinv.2.2.imp fun hab => descB_ne hab

/-- Witness for C2: inserting `0.2.0` then `0.1.0` keeps the headings strictly
descending and duplicate-free. -/
theorem C2_descending_invariant_witness :
    (∀ s ∈ [(⟨"0.2.0", Block.heading 2 "0.2.0", [Block.para "a"]⟩ : VersionSection),
        ⟨"0.1.0", Block.heading 2 "0.1.0", [Block.para "b"]⟩], wfSectionB s = true) ∧
    (([(⟨"0.2.0", Block.heading 2 "0.2.0", [Block.para "a"]⟩ : VersionSection),
        ⟨"0.1.0", Block.heading 2 "0.1.0", [Block.para "b"]⟩].filterMap keyOf)).Nodup ∧
    ((headingTitlesAt 2 (insertAllSections
        [⟨"0.2.0", Block.heading 2 "0.2.0", [Block.para "a"]⟩,
          ⟨"0.1.0", Block.heading 2 "0.1.0", [Block.para "b"]⟩])).Pairwise
      (fun a b => descB a b = true) ∧
      (headingTitlesAt 2 (insertAllSections
        [⟨"0.2.0", Block.heading 2 "0.2.0", [Block.para "a"]⟩,
          ⟨"0.1.0", Block.heading 2 "0.1.0", [Block.para "b"]⟩])).Nodup) :=
  ⟨by decide, by decide,
    C2_descending_invariant
      [⟨"0.2.0", Block.heading 2 "0.2.0", [Block.para "a"]⟩,
        ⟨"0.1.0", Block.heading 2 "0.1.0", [Block.para "b"]⟩]
      (by decide) (by decide)⟩

/-- Counterexample to C2 as stated: `"0.1"` and `"0.1.0"` are distinct, parseable
version strings, yet after inserting them in that order the level-2 headings read
`0.1` then `0.1.0` - their parsed versions are equal (`packaging` pads with zeros),
so the versions are not strictly descending. -/
theorem C2_counterexample :
    "0.1" ≠ "0.1.0" ∧
    pyVersion? "0.1" = some [0, 1] ∧ pyVersion? "0.1.0" = some [0, 1, 0] ∧
    headingTitlesAt 2 (insertAllSections
      [⟨"0.1", Block.heading 2 "0.1", []⟩, ⟨"0.1.0", Block.heading 2 "0.1.0", []⟩]) =
      ["0.1", "0.1.0"] ∧
    veqB [0, 1] [0, 1, 0] = true ∧ descB "0.1" "0.1.0" = false :=
  ⟨by decide, by decide, by decide, by decide, by decide, by decide⟩

/-! ## Claim C4: the end-to-end scenario -/

/-- Counterexample to C4 as stated: under the default configuration no section is
configured, so the fallback bucket is named `Changes`, not `Other changes`
(line 275), and the version body additionally starts with a `Released on ...`
paragraph (lines 336-344); the claimed document is not produced. -/
theorem C4_counterexample :
    Block.heading 3 "Other changes" ∉
      insert_version_section changelogNew
        (from_pull_requests defaultConfig "0.1.0"
          [⟨"Test", 1, [], "author", "repo", "owner"⟩] [] [] ["author"] "2026-10-12") 2 ∧
    Block.heading 3 "Changes" ∈
      insert_version_section changelogNew
        (from_pull_requests defaultConfig "0.1.0"
          [⟨"Test", 1, [], "author", "repo", "owner"⟩] [] [] ["author"] "2026-10-12") 2 ∧
    Block.para "Released on 2026-10-12." ∈
      insert_version_section changelogNew
        (from_pull_requests defaultConfig "0.1.0"
          [⟨"Test", 1, [], "author", "repo", "owner"⟩] [] [] ["author"] "2026-10-12") 2 :=
  ⟨by decide, by decide, by decide⟩

/-- C4 (amended): the scenario of the claim - `Changelog.new()` plus the single
record `{title: "Test", number: 1, labels: {}, author: "author"}` for version
`0.1.0` under the default configuration (release date fixed to `2026-10-12`) -
renders to a document with the `# Changelog` title, the `## 0.1.0` heading, a
`Released on 2026-10-12.` line, a `### Changes` (not `Other changes`) section with
the single change line, and a `### Contributors` section with the single author
line. -/
theorem C4_end_to_end_render :
    renderDoc
      (insert_version_section changelogNew
        (from_pull_requests defaultConfig "0.1.0"
          [⟨"Test", 1, [], "author", "repo", "owner"⟩] [] [] ["author"] "2026-10-12") 2) =
      "# Changelog\n\n## 0.1.0\n\nReleased on 2026-10-12.\n\n### Changes\n\n- Test ([#1](https://github.com/owner/repo/pull/1))\n\n### Contributors\n\n- [@author](https://github.com/author)\n\n\n" := by
  decide

/-! ## Claim C9: the contributors section -/

/-- Evaluation for C9: the contributor lines are emitted in the iteration order of
the Python set `authors` (hash-based, not sorted).  With authors `b` and `a` the
set may enumerate as `["b", "a"]` - a legal iteration order of exactly the eligible
authors - and the rendered Contributors entries then read `b` before `a`, not in
sorted order as the claim requires. -/
theorem C9_contributors_unsorted :
    eligibleAuthors defaultConfig
      [⟨"One", 1, [], "b", "repo", "owner"⟩, ⟨"Two", 2, [], "a", "repo", "owner"⟩] =
      ["b", "a"] ∧
    (from_pull_requests defaultConfig "1.0.0"
      [⟨"One", 1, [], "b", "repo", "owner"⟩, ⟨"Two", 2, [], "a", "repo", "owner"⟩]
      [] [] ["b", "a"] "2026-10-12").children =
      [Block.para "Released on 2026-10-12.", Block.blankLine,
        Block.heading 3 "Changes", Block.blankLine,
        Block.bulletList
          ["- One ([#1](https://github.com/owner/repo/pull/1))",
            "- Two ([#2](https://github.com/owner/repo/pull/2))"],
        Block.blankLine,
        Block.heading 3 "Contributors", Block.blankLine,
        Block.bulletList
          ["- [@b](https://github.com/b)", "- [@a](https://github.com/a)"],
        Block.blankLine] ∧
    ["- [@b](https://github.com/b)", "- [@a](https://github.com/a)"] ≠
      ["- [@a](https://github.com/a)", "- [@b](https://github.com/b)"] :=
  ⟨by decide, by decide, by decide⟩

/-! ## Claim C3: `extract_entry` -/

/-- Evaluation for C3: on the two-version changelog, extracting the newest version
raises `ValueError` (the lazy `filter` from `get_versions_from_changelog` is
consumed by the membership test inside `get_previous_version`, so
`versions.index(version)` fails), and extracting an absent version raises
`TypeError` (`[version] + versions` concatenates a list with the exhausted filter
object); the claim's promised substring (or `None`) is never returned. -/
theorem C3_extract_entry_raises :
    changelogVersions ("## 0.2.0\n\nB\n\n## 0.1.0\n\nA\n").data =
      [[0, 2, 0], [0, 1, 0]] ∧
    extract_entry ("## 0.2.0\n\nB\n\n## 0.1.0\n\nA\n").data [0, 2, 0] =
      Except.error PyErr.valueError ∧
    extract_entry ("## 0.2.0\n\nB\n\n## 0.1.0\n\nA\n").data [0, 3, 0] =
      Except.error PyErr.typeError :=
  ⟨by decide, by decide, by decide⟩

/-! ## Claim C7: only/without filtering -/

theorem initBuckets_empty (secLabels : List (String × List String)) :
    ∀ q ∈ initBuckets secLabels, q.2 = ([] : List PullRequest) := by
  intro q hq
  simp only [initBuckets] at hq
  split at hq
  · obtain ⟨q0, _, rfl⟩ := List.mem_map.1 hq
    rfl
  · rcases List.mem_append.1 hq with hq' | hq'
    · obtain ⟨q0, _, rfl⟩ := List.mem_map.1 hq'
      rfl
    · have h1 : q = (otherSectionName secLabels, []) := by simpa using hq'
      rw [h1]

theorem routePR_not_mem (cfg : Config) (secLabels : List (String × List String))
    (only without : List String) (other : String) (pr x : PullRequest)
    (acc : List (String × List PullRequest))
    (hacc : ∀ q ∈ acc, pr ∉ q.2)
    (hskip : x = pr →
      prDropped cfg without pr = true ∨
        (prTarget secLabels only pr = none ∧ only ≠ [])) :
    ∀ q ∈ routePR cfg secLabels only without other acc x, pr ∉ q.2 := by
  intro q hq
  rw [routePR] at hq
  by_cases hdrop : prDropped cfg without x
  · rw [if_pos hdrop] at hq
    exact hacc q hq
  · rw [if_neg hdrop] at hq
    have hxcase : x = pr → prTarget secLabels only pr = none ∧ only ≠ [] := by
      intro hxp
      rcases hskip hxp with hd | ht
      · rw [← hxp] at hd
        exact absurd hd hdrop
      · exact ht
    cases htgt : prTarget secLabels only x with
    | some sec =>
      rw [htgt] at hq
      obtain ⟨q0, hq0, rfl⟩ := List.mem_map.1 hq
      intro hmem
      by_cases hc : (q0.1 == sec) = true
      · rw [if_pos hc] at hmem
        rcases List.mem_append.1 hmem with hm | hm
        · exact hacc q0 hq0 hm
        · have hxp : x = pr := by
            have : pr = x := by simpa using hm
            exact this.symm
          rw [hxp] at htgt
          rw [(hxcase hxp).1] at htgt
          exact Option.noConfusion htgt
      · rw [if_neg hc] at hmem
        exact hacc q0 hq0 hmem
    | none =>
      rw [htgt] at hq
      by_cases honly : only.isEmpty
      · rw [if_pos honly] at hq
        obtain ⟨q0, hq0, rfl⟩ := List.mem_map.1 hq
        intro hmem
        by_cases hc : (q0.1 == other) = true
        · rw [if_pos hc] at hmem
          rcases List.mem_append.1 hmem with hm | hm
          · exact hacc q0 hq0 hm
          · have hxp : x = pr := by
              have : pr = x := by simpa using hm
              exact this.symm
            have := (hxcase hxp).2
            rw [show only = [] from by simpa using honly] at this
            exact this rfl
        · rw [if_neg hc] at hmem
          exact hacc q0 hq0 hmem
      · rw [if_neg honly] at hq
        exact hacc q hq

theorem foldl_route_not_mem (cfg : Config) (secLabels : List (String × List String))
    (only without : List String) (other : String) (pr : PullRequest)
    (hskip : prDropped cfg without pr = true ∨
      (prTarget secLabels only pr = none ∧ only ≠ [])) :
    ∀ (l : List PullRequest) (acc : List (String × List PullRequest)),
      (∀ q ∈ acc, pr ∉ q.2) →
      ∀ q ∈ l.foldl (routePR cfg secLabels only without other) acc, pr ∉ q.2 := by
  intro l
  induction l with
  | nil => intro acc hacc q hq; exact hacc q hq
  | cons x rest ih =>
    intro acc hacc
    exact ih (routePR cfg secLabels only without other acc x)
      (routePR_not_mem cfg secLabels only without other pr x acc hacc fun _ => hskip)

/-- C7 (amended): `without_sections` is matched against a record's *labels*, not
against the name of the section the record would land in: a record one of whose
labels is in `without_sections` (or in the globally ignored labels) goes to no
bucket; and when `only_sections` is nonempty, a record matching no admissible
section is omitted rather than routed to the fallback bucket.  (Exclusion of a
*section name* via `without_sections` does not drop records that match that
section through a label not itself listed - see the counterexample.) -/
theorem C7_filtering (cfg : Config) (only without : List String)
    (prs : List PullRequest) (pr : PullRequest) :
    (prDropped cfg without pr = true →
      (classifyBuckets cfg only without prs).all (fun q => !(q.2.contains pr)) = true) ∧
    (only ≠ [] → prTarget (buildSectionLabels cfg) only pr = none →
      (classifyBuckets cfg only without prs).all (fun q => !(q.2.contains pr)) = true) := by
  have hmain : ∀ (hskip : prDropped cfg without pr = true ∨
      (prTarget (buildSectionLabels cfg) only pr = none ∧ only ≠ [])),
      (classifyBuckets cfg only without prs).all (fun q => !(q.2.contains pr)) = true := by
    intro hskip
    rw [List.all_eq_true]
    intro q hq
    have hnm : pr ∉ q.2 := by
      refine foldl_route_not_mem cfg (buildSectionLabels cfg) only without
        (otherSectionName (buildSectionLabels cfg)) pr hskip
        (sortByNumber (pySet prs)) (initBuckets (buildSectionLabels cfg)) ?_ q ?_
      · intro q0 hq0
        rw [initBuckets_empty _ q0 hq0]
        exact List.not_mem_nil pr
      · exact hq
    simp [hnm]
  exact ⟨fun h => hmain (Or.inl h), fun h1 h2 => hmain (Or.inr ⟨h2, h1⟩)⟩

/-- Witness for C7: a record labelled `a` with `without_sections = ["a"]` lands in
no bucket, and with `only_sections = ["B"]` a record matching only the
non-included section `A` is omitted. -/
theorem C7_filtering_witness :
    (classifyBuckets { section_labels := [("A", ["a"])] } [] ["a"]
        [⟨"T", 1, ["a"], "u", "r", "o"⟩]).all
      (fun q => !(q.2.contains (⟨"T", 1, ["a"], "u", "r", "o"⟩ : PullRequest))) = true ∧
    (classifyBuckets { section_labels := [("A", ["a"])] } ["B"] []
        [⟨"T", 1, ["a"], "u", "r", "o"⟩]).all
      (fun q => !(q.2.contains (⟨"T", 1, ["a"], "u", "r", "o"⟩ : PullRequest))) = true :=
  ⟨(C7_filtering { section_labels := [("A", ["a"])] } [] ["a"]
      [⟨"T", 1, ["a"], "u", "r", "o"⟩] ⟨"T", 1, ["a"], "u", "r", "o"⟩).1 (by decide),
   (C7_filtering { section_labels := [("A", ["a"])] } ["B"] []
      [⟨"T", 1, ["a"], "u", "r", "o"⟩] ⟨"T", 1, ["a"], "u", "r", "o"⟩).2
      (by decide) (by decide)⟩

/-- Counterexample to C7 as stated: the record matches section `A`, the invocation
excludes section `A` via `without_sections = ["A"]`, and yet the record appears in
bucket `A` - the code compares `without_sections` against labels (line 289), and
the record's label `a` is not the string `A`. -/
theorem C7_counterexample :
    prTarget (buildSectionLabels { section_labels := [("A", ["a"])] }) []
        (⟨"T", 1, ["a"], "u", "r", "o"⟩ : PullRequest) = some "A" ∧
    classifyBuckets { section_labels := [("A", ["a"])] } [] ["A"]
        [⟨"T", 1, ["a"], "u", "r", "o"⟩] =
      [("A", [⟨"T", 1, ["a"], "u", "r", "o"⟩]), ("Other changes", [])] :=
  ⟨by decide, by decide⟩

/-! ## Claim C10: `ensure_spacing` -/

theorem strReplace_length_le (pat rep : List Char) (hr : rep.length ≤ pat.length) :
    ∀ (n : Nat) (s : List Char), s.length ≤ n →
      (strReplace pat rep s).length ≤ s.length := by
  intro n
  induction n with
  | zero =>
    intro s hs
    have hnil : s = [] := List.eq_nil_of_length_eq_zero (by omega)
    rw [hnil]
    simp [strReplace]
  | succ n ih =>
    intro s hs
    cases s with
    | nil => simp [strReplace]
    | cons c rest =>
      rw [strReplace]
      by_cases hp : (!pat.isEmpty && pat.isPrefixOf (c :: rest)) = true
      · rw [if_pos hp]
        rw [Bool.and_eq_true] at hp
        have hplen : 1 ≤ pat.length := by
          cases pat with
          | nil => simp at hp
          | cons _ _ => simp
        have hpat_le : pat.length ≤ (c :: rest).length :=
          (List.isPrefixOf_iff_prefix.1 hp.2).length_le
        have hdl : ((c :: rest).drop pat.length).length ≤ n := by
          rw [List.length_drop]
          have hd : (c :: rest).length = rest.length + 1 := rfl
          omega
        have hrec := ih _ hdl
        rw [List.length_append]
        rw [List.length_drop] at hrec
        omega
      · rw [if_neg hp]
        simp only [List.length_cons]
        have hrec := ih rest (by
          have hd : (c :: rest).length = rest.length + 1 := rfl
          omega)
        omega

theorem strReplace_length_lt (pat rep : List Char) (hne : pat ≠ [])
    (hr : rep.length < pat.length) :
    ∀ (n : Nat) (s : List Char), s.length ≤ n → strContains pat s = true →
      (strReplace pat rep s).length < s.length := by
  intro n
  induction n with
  | zero =>
    intro s hs hc
    have hnil : s = [] := List.eq_nil_of_length_eq_zero (by omega)
    rw [hnil, strContains] at hc
    rw [show pat.isEmpty = false from by cases pat with
      | nil => exact absurd rfl hne
      | cons _ _ => rfl] at hc
    exact Bool.noConfusion hc
  | succ n ih =>
    intro s hs hc
    cases s with
    | nil =>
      rw [strContains] at hc
      rw [show pat.isEmpty = false from by cases pat with
        | nil => exact absurd rfl hne
        | cons _ _ => rfl] at hc
      exact Bool.noConfusion hc
    | cons c rest =>
      rw [strReplace]
      by_cases hp : (!pat.isEmpty && pat.isPrefixOf (c :: rest)) = true
      · rw [if_pos hp]
        rw [Bool.and_eq_true] at hp
        have hplen : 1 ≤ pat.length := by
          cases pat with
          | nil => exact absurd rfl hne
          | cons _ _ => simp
        have hpat_le : pat.length ≤ (c :: rest).length :=
          (List.isPrefixOf_iff_prefix.1 hp.2).length_le
        have hdl : ((c :: rest).drop pat.length).length ≤ n := by
          rw [List.length_drop]
          have hd : (c :: rest).length = rest.length + 1 := rfl
          omega
        have hrec := strReplace_length_le pat rep (by omega) n _ hdl
        rw [List.length_append]
        rw [List.length_drop] at hrec
        omega
      · rw [if_neg hp]
        have hpf : pat.isPrefixOf (c :: rest) = false := by
          rw [Bool.and_eq_true] at hp
          by_cases hpp : pat.isPrefixOf (c :: rest) = true
          · exfalso
            refine hp ⟨?_, hpp⟩
            cases pat with
            | nil => exact absurd rfl hne
            | cons _ _ => rfl
          · exact Bool.eq_false_iff.2 hpp
        have hcrest : strContains pat rest = true := by
          rw [strContains, hpf] at hc
          simpa using hc
        simp only [List.length_cons]
        have hrec := ih rest (by
          have hd : (c :: rest).length = rest.length + 1 := rfl
          omega) hcrest
        omega

theorem spacingLoop_no3 : ∀ (n : Nat) (s : List Char), s.length < n →
    strContains nl3 (spacingLoop n s) = false := by
  intro n
  induction n with
  | zero => intro s hs; omega
  | succ n ih =>
    intro s hs
    rw [spacingLoop]
    by_cases hc : strContains nl3 s = true
    · rw [if_pos hc]
      refine ih _ ?_
      have := strReplace_length_lt nl3 nl2 (by decide) (by decide) s.length s le_rfl hc
      omega
    · rw [if_neg hc]
      simpa using hc

theorem spacingLoop_fix (n : Nat) (s : List Char) (h : strContains nl3 s = false) :
    spacingLoop n s = s := by
  cases n with
  | zero => rfl
  | succ n =>
    rw [spacingLoop, if_neg (by simp [h])]

theorem strContains_char_iff (pat : List Char) :
    ∀ s, strContains pat s = true ↔ pat <:+: s := by
  intro s
  induction s with
  | nil =>
    rw [strContains]
    constructor
    · intro h
      rw [show pat = [] from by simpa [List.isEmpty_iff] using h]
    · intro h
      rw [List.eq_nil_of_infix_nil h]
      rfl
  | cons c rest ih =>
    rw [strContains, Bool.or_eq_true, List.isPrefixOf_iff_prefix, ih,
      List.infix_cons_iff]

theorem head?_dropWhile_false (p : Char → Bool) :
    ∀ (l : List Char) {a : Char}, (l.dropWhile p).head? = some a → p a = false := by
  intro l
  induction l with
  | nil => intro a h; simp [List.dropWhile] at h
  | cons c rest ih =>
    intro a h
    rw [List.dropWhile_cons] at h
    by_cases hc : p c = true
    · rw [if_pos hc] at h
      exact ih h
    · rw [if_neg hc] at h
      have : c = a := by simpa using h
      rw [← this]
      simpa using hc

theorem rstripNl_last_ne (s : List Char) : (rstripNl s).getLast? ≠ some '\n' := by
  rw [rstripNl, List.getLast?_reverse]
  intro h
  have := head?_dropWhile_false _ _ h
  simp at this

theorem rstripNl_prefix (s : List Char) : ∃ t, s = rstripNl s ++ t := by
  refine ⟨(s.reverse.takeWhile (fun c => c = '\n')).reverse, ?_⟩
  rw [rstripNl, ← List.reverse_append, List.takeWhile_append_dropWhile,
    List.reverse_reverse]

theorem rstripNl_snoc_nl (p : List Char) (hp : p.getLast? ≠ some '\n') :
    rstripNl (p ++ ['\n']) = p := by
  rw [rstripNl, List.reverse_append,
    show (['\n'] : List Char).reverse = ['\n'] from rfl,
    show (['\n'] : List Char) ++ p.reverse = '\n' :: p.reverse from rfl,
    List.dropWhile_cons, if_pos (by simp)]
  have hdw : p.reverse.dropWhile (fun c => c = '\n') = p.reverse := by
    cases hrev : p.reverse with
    | nil => rfl
    | cons c t =>
      rw [List.dropWhile_cons]
      have hc : c ≠ '\n' := by
        intro hcn
        refine hp ?_
        rw [← List.head?_reverse, hrev, hcn]
        rfl
      rw [if_neg (by simp [hc])]
  rw [hdw, List.reverse_reverse]

theorem noTriple_snoc (p : List Char) (h1 : ¬ nl3 <:+: p)
    (h2 : p.getLast? ≠ some '\n') : ¬ nl3 <:+: (p ++ ['\n']) := by
  rintro ⟨u, w, huw⟩
  rcases List.eq_nil_or_concat w with rfl | ⟨w', a, rfl⟩
  · rw [List.append_nil] at huw
    have hassoc : (u ++ nl2) ++ ['\n'] = p ++ ['\n'] := by
      rw [← huw]
      simp [nl3, nl2]
    have hpeq : u ++ nl2 = p := List.append_cancel_right hassoc
    refine h2 ?_
    rw [← hpeq, show u ++ nl2 = (u ++ ['\n']) ++ ['\n'] from by simp [nl2]]
    exact List.getLast?_concat _
  · rw [List.concat_eq_append] at huw
    have hassoc : (u ++ nl3 ++ w') ++ [a] = p ++ ['\n'] := by
      rw [← huw]
      simp
    have hpeq : u ++ nl3 ++ w' = p := by
      have := congrArg List.dropLast hassoc
      rwa [List.dropLast_concat, List.dropLast_concat] at this
    exact h1 ⟨u, w', hpeq⟩

/-- C10: `ensure_spacing` produces no run of three newlines, ends with exactly one
trailing newline (the last character is a newline, and stripping all trailing
newlines removes exactly that one), and is idempotent. -/
theorem C10_ensure_spacing (s : String) :
    strContains nl3 (ensure_spacing s).data = false ∧
    (ensure_spacing s).data.getLast? = some '\n' ∧
    rstripNl (ensure_spacing s).data ++ ['\n'] = (ensure_spacing s).data ∧
    ensure_spacing (ensure_spacing s) = ensure_spacing s := by
  have hnc : strContains nl3 (spacingLoop (s.data.length + 1) s.data) = false :=
    spacingLoop_no3 _ _ (by omega)
  have hdata : (ensure_spacing s).data =
      rstripNl (spacingLoop (s.data.length + 1) s.data) ++ ['\n'] := rfl
  have hqlast : (rstripNl (spacingLoop (s.data.length + 1) s.data)).getLast? ≠
      some '\n' := rstripNl_last_ne _
  have hnotinf_t : ¬ nl3 <:+: spacingLoop (s.data.length + 1) s.data := by
    intro hinf
    rw [(strContains_char_iff nl3 _).2 hinf] at hnc
    exact Bool.noConfusion hnc
  have hnotinf_q : ¬ nl3 <:+: rstripNl (spacingLoop (s.data.length + 1) s.data) := by
    intro hinf
    obtain ⟨u, hu⟩ := rstripNl_prefix (spacingLoop (s.data.length + 1) s.data)
    obtain ⟨a, b, hab⟩ := hinf
    refine hnotinf_t ⟨a, b ++ u, ?_⟩
    rw [hu, ← hab]
    simp
  have hnotinf_r : ¬ nl3 <:+: (rstripNl (spacingLoop (s.data.length + 1) s.data) ++ ['\n']) :=
    noTriple_snoc _ hnotinf_q hqlast
  have hstrip : rstripNl ((ensure_spacing s).data) =
      rstripNl (spacingLoop (s.data.length + 1) s.data) := by
    rw [hdata]
    exact rstripNl_snoc_nl _ hqlast
  refine ⟨?_, ?_, ?_, ?_⟩
  · rw [hdata]
    by_cases hcc : strContains nl3
        (rstripNl (spacingLoop (s.data.length + 1) s.data) ++ ['\n']) = true
    · exact absurd ((strContains_char_iff nl3 _).1 hcc) hnotinf_r
    · simpa using hcc
  · rw [hdata]
    exact List.getLast?_concat _
  · rw [hstrip, hdata]
  · have hnc_r : strContains nl3 (ensure_spacing s).data = false := by
      by_cases hcc : strContains nl3 (ensure_spacing s).data = true
      · rw [hdata] at hcc
        exact absurd ((strContains_char_iff nl3 _).1 hcc) hnotinf_r
      · simpa using hcc
    have houter : ensureSpacingList (ensure_spacing s).data = (ensure_spacing s).data := by
      rw [ensureSpacingList, spacingLoop_fix _ _ hnc_r, hstrip, ← hdata]
    have hmk : ensure_spacing (ensure_spacing s) =
        String.mk (ensureSpacingList (ensure_spacing s).data) := rfl
    rw [hmk, houter]

end Rooster
